import Mathlib

/-!
Shallow embedding of the reactive query engine of the
`spacetime-svelte-group-chat-example` repository, covering
`src/frontend/src/lib/components/spacetime/svelte_spacetime/QueryFormatting.ts`
(expression model, evaluator, compiler) and
`src/frontend/src/lib/components/spacetime/svelte_spacetime/STQuery.svelte.ts`
(membership classifier, row lookup, cache mutation on events).

JavaScript strings are modelled as `List Char` (`JStr`), rows as partial maps
from property names to values (`JStr → Option Val`, `none` = property absent),
and a thrown exception as an `Option.none` result.
-/

/-- JavaScript string, modelled as its list of characters. -/
abbrev JStr := List Char

/-- The single-quote character (written via its code point to keep source plain). -/
def sqChar : Char := Char.ofNat 39

/-- The double-quote character. -/
def dqChar : Char := Char.ofNat 34

/-- Opaque identity value (the SDK `Identity`); compared by content equality.
The 32-byte payload is modelled as a list of bytes. -/
structure Identity where
  bytes : List Nat
deriving DecidableEq

/-- Source `Identity.isEqual`: content equality of the underlying data. -/
def Identity.isEqual (a b : Identity) : Bool :=
  a.bytes == b.bytes

/-- Lowercase hexadecimal digit for a nibble (out-of-range defaults never arise
for bytes but are totalised with a digit). -/
def nibbleChar (n : Nat) : Char :=
  "0123456789abcdef".data.getD n (Char.ofNat 48)

/-- Source `Identity.toHexString`: lowercase hex encoding of the bytes. -/
def Identity.toHexString (a : Identity) : JStr :=
  a.bytes.foldr (fun b acc => nibbleChar (b / 16) :: nibbleChar (b % 16) :: acc) []

/-- Source `identityToQueryCompliantHexString`: hex string with `0x` prefix. -/
def identityToQueryCompliantHexString (a : Identity) : JStr :=
  "0x".data ++ a.toHexString

/-- Source `type Value = string | number | boolean | Identity`.  Numbers are
restricted to the integral values the example exchanges (JavaScript numbers
at integral values; non-finite doubles do not arise in this fragment). -/
inductive Val where
  | str (s : JStr)
  | num (n : Int)
  | bool (b : Bool)
  | ident (i : Identity)
deriving DecidableEq

/-- A row object: a partial map from property names to values
(`none` models an absent property). -/
def Row : Type := JStr → Option Val

/-- Source `camelToSnakeCase` / `camelToSnake`:
`str.replace(/[A-Z]/g, letter => underscore + letter.toLowerCase())`. -/
def camelToSnakeCase : JStr → JStr
  | [] => []
  | c :: rest =>
    if c.isUpper then '_' :: c.toLower :: camelToSnakeCase rest
    else c :: camelToSnakeCase rest

/-- Source `snakeToCamelCase` / `snakeToCamel`:
`str.replace(/_([a-z])/g, (_, letter) => letter.toUpperCase())`; the regex
matches left to right and non-overlapping, exactly as this recursion does. -/
def snakeToCamelCase : JStr → JStr
  | [] => []
  | '_' :: c :: rest =>
    if 'a' ≤ c ∧ c ≤ 'z' then c.toUpper :: snakeToCamelCase rest
    else '_' :: snakeToCamelCase (c :: rest)
  | c :: rest => c :: snakeToCamelCase rest

/-- Source `PendingResolutionContext`. -/
structure PendingResolutionContext where
  clientIdentity : Option Identity

/-- Concrete (pending-free) filter expression.  The `resolve` callbacks this
module constructs (in `eq` and `not`) always produce fully concrete
expressions, so resolution results live in this type. -/
inductive CExpr where
  | eq (key : JStr) (value : Val)
  | not (child : CExpr)
  | and (children : List CExpr)
  | or (children : List CExpr)

/-- Source `Expr<Column>`: the tagged union including `pending` placeholders.
A pending node carries an optional key and a resolve callback. -/
inductive Expr where
  | eq (key : JStr) (value : Val)
  | not (child : Expr)
  | and (children : List Expr)
  | or (children : List Expr)
  | pending (key : Option JStr) (resolve : PendingResolutionContext → Option CExpr)

/-- Injection of a concrete expression into the full expression type. -/
def CExpr.toExpr : CExpr → Expr
  | .eq k v => .eq k v
  | .not c => .not c.toExpr
  | .and cs => .and (toExprList cs)
  | .or cs => .or (toExprList cs)
where toExprList : List CExpr → List Expr
  | [] => []
  | c :: cs => c.toExpr :: toExprList cs

/-- Source `eq` constructor: an `undefined` value produces a pending node whose
resolution substitutes the client identity; otherwise a concrete `eq` leaf. -/
def eqCtor (key : JStr) (value : Option Val) : Expr :=
  match value with
  | none =>
    .pending (some key) (fun ctx =>
      match ctx.clientIdentity with
      | none => none
      | some i => some (.eq key (.ident i)))
  | some v => .eq key v

/-- Source `not` constructor: wraps a pending child into a pending node whose
resolution negates the resolved child; otherwise a plain `not` node. -/
def notCtor (child : Expr) : Expr :=
  match child with
  | .pending k r =>
    .pending k (fun ctx =>
      match r ctx with
      | none => none
      | some resolved => some (.not resolved))
  | c => .not c

/-- Source `and` constructor: flattens one level of `and` children, then an
empty list stays an empty `and`, a single child collapses to that child.
(The `if (!c) continue` / `filter(Boolean)` null-pruning steps are identities
here because the embedding has no null expressions.) -/
def andCtor (children : List Expr) : Expr :=
  let flat := children.foldr
    (fun c acc => match c with | .and cs => cs ++ acc | c => c :: acc) []
  match flat with
  | [] => .and []
  | [x] => x
  | xs => .and xs

/-- Source `or` constructor, dual to `andCtor`. -/
def orCtor (children : List Expr) : Expr :=
  let flat := children.foldr
    (fun c acc => match c with | .or cs => cs ++ acc | c => c :: acc) []
  match flat with
  | [] => .or []
  | [x] => x
  | xs => .or xs

/-- Concrete-expression version of the `and` constructor (the same source
function, applied to the already-resolved children inside
`resolvePendingExpression`). -/
def andCtorC (children : List CExpr) : CExpr :=
  let flat := children.foldr
    (fun c acc => match c with | .and cs => cs ++ acc | c => c :: acc) []
  match flat with
  | [] => .and []
  | [x] => x
  | xs => .and xs

/-- Concrete-expression version of the `or` constructor. -/
def orCtorC (children : List CExpr) : CExpr :=
  let flat := children.foldr
    (fun c acc => match c with | .or cs => cs ++ acc | c => c :: acc) []
  match flat with
  | [] => .or []
  | [x] => x
  | xs => .or xs

mutual

/-- Source `resolvePendingExpression`: replaces pending nodes via their
callbacks; an unresolvable pending anywhere yields `none` (`undefined`).
The `and`/`or` cases rebuild the node with the smart constructors, the `not`
case rebuilds a plain node, exactly as in the source. -/
def resolvePendingExpression (e : Expr) (ctx : PendingResolutionContext) : Option CExpr :=
  match e with
  | .pending _ r => r ctx
  | .not c =>
    match resolvePendingExpression c ctx with
    | none => none
    | some rc => some (.not rc)
  | .and cs =>
    match resolveChildren cs ctx with
    | none => none
    | some rcs => some (andCtorC rcs)
  | .or cs =>
    match resolveChildren cs ctx with
    | none => none
    | some rcs => some (orCtorC rcs)
  | .eq k v => some (.eq k v)

/-- Resolves a list of children left to right, failing as soon as one child
fails (the source loops and returns `undefined` on the first failure). -/
def resolveChildren (cs : List Expr) (ctx : PendingResolutionContext) : Option (List CExpr) :=
  match cs with
  | [] => some []
  | c :: rest =>
    match resolvePendingExpression c ctx with
    | none => none
    | some rc =>
      match resolveChildren rest ctx with
      | none => none
      | some rrest => some (rc :: rrest)

end

/-- Source `getRowValue` helper inside `evaluate`: try the key as given; if
absent and the key contains an underscore, retry the camelCase version;
otherwise the value is absent. -/
def getRowValue (row : Row) (key : JStr) : Option Val :=
  match row key with
  | some v => some v
  | none =>
    if '_' ∈ key then row (snakeToCamelCase key)
    else none

/-- Source `eq` case of `evaluate`: identity-aware comparison.  Mirrors the
branch order: both identities use `isEqual`; a row-side identity is hex-encoded
and compared to the filter value; a filter-side identity is hex-encoded and
compared to the row value; otherwise strict (`===`) equality, which is `false`
across different runtime types and for an absent (`undefined`) row value. -/
def evalEq (rowValue : Option Val) (exprValue : Val) : Bool :=
  match rowValue, exprValue with
  | some (.ident ri), .ident ei => ri.isEqual ei
  | some (.ident ri), ev =>
    match ev with
    | .str s => identityToQueryCompliantHexString ri == s
    | _ => false
  | rv, .ident ei =>
    match rv with
    | some (.str s) => s == identityToQueryCompliantHexString ei
    | _ => false
  | some (.str a), .str b => a == b
  | some (.num a), .num b => a == b
  | some (.bool a), .bool b => a == b
  | _, _ => false

mutual

/-- Evaluation of a concrete expression against a row (the `switch` body of the
source `evaluate` after resolution; the recursive source calls re-resolve each
already-concrete child, which is semantics-preserving — see
`evalC_resolveConcrete` and `evaluate_toExpr`). -/
def evalC (e : CExpr) (row : Row) : Bool :=
  match e with
  | .eq k v => evalEq (getRowValue row k) v
  | .not c => !evalC c row
  | .and cs => evalAll cs row
  | .or cs => evalAny cs row

/-- Source `children.every(child => evaluate(child, row, clientIdentity))`. -/
def evalAll (cs : List CExpr) (row : Row) : Bool :=
  match cs with
  | [] => true
  | c :: rest => evalC c row && evalAll rest row

/-- Source `children.some(child => evaluate(child, row, clientIdentity))`. -/
def evalAny (cs : List CExpr) (row : Row) : Bool :=
  match cs with
  | [] => false
  | c :: rest => evalC c row || evalAny rest row

end

/-- Source `evaluate(expr, row, clientIdentity)`: resolve pending nodes first;
an unresolvable expression evaluates to `false` (never throws). -/
def evaluate (e : Expr) (row : Row) (clientIdentity : Option Identity) : Bool :=
  match resolvePendingExpression e ⟨clientIdentity⟩ with
  | none => false
  | some c => evalC c row

/-- Source `formatValue`: strings are single-quoted with embedded quotes
doubled; integral numbers print in decimal (`Number.isFinite` holds for every
integral value, so the quoted fallback for non-finite doubles is not taken);
booleans print as `TRUE`/`FALSE`; identities print as the quoted `0x` hex
encoding (with the same quote-doubling applied, a no-op on hex digits). -/
def escapeSingleQuotes : JStr → JStr
  | [] => []
  | c :: rest =>
    if c = sqChar then sqChar :: sqChar :: escapeSingleQuotes rest
    else c :: escapeSingleQuotes rest

/-- Decimal digit character for `n % 10`. -/
def digitChar (n : Nat) : Char := Char.ofNat (48 + n % 10)

/-- Decimal digits of a natural number (fuel-structured for computability;
`n + 1` fuel always suffices). -/
def natDigitsAux : Nat → Nat → JStr
  | 0, _ => []
  | fuel + 1, n =>
    if n < 10 then [digitChar n]
    else natDigitsAux fuel (n / 10) ++ [digitChar (n % 10)]

/-- Decimal digits of a natural number. -/
def natDigits (n : Nat) : JStr := natDigitsAux (n + 1) n

/-- Decimal rendering of an integer, as JavaScript `String(number)` renders an
integral number. -/
def intToDecimal (n : Int) : JStr :=
  if n < 0 then '-' :: natDigits n.natAbs else natDigits n.natAbs

/-- Source `formatValue`. -/
def formatValue : Val → JStr
  | .str s => sqChar :: escapeSingleQuotes s ++ [sqChar]
  | .num n => intToDecimal n
  | .bool b => if b then "TRUE".data else "FALSE".data
  | .ident i =>
    sqChar :: escapeSingleQuotes (identityToQueryCompliantHexString i) ++ [sqChar]

/-- Doubling of embedded double quotes (source
`snakeCaseId.replace(/"/g, quote-quote)`). -/
def escapeDoubleQuotes : JStr → JStr
  | [] => []
  | c :: rest =>
    if c = dqChar then dqChar :: dqChar :: escapeDoubleQuotes rest
    else c :: escapeDoubleQuotes rest

/-- Test for the source regex `/^[A-Za-z_][A-Za-z0-9_]*$/`. -/
def isBareIdent (s : JStr) : Bool :=
  match s with
  | [] => false
  | c :: rest =>
    (c.isUpper || c.isLower || c = '_') &&
      rest.all (fun c => c.isUpper || c.isLower || c.isDigit || c = '_')

/-- Source `escapeIdent`: convert the key to snake_case; emit it bare when it
is a valid bare identifier, else wrap in double quotes with inner quotes
doubled. -/
def escapeIdent (id : JStr) : JStr :=
  let snakeCaseId := camelToSnakeCase id
  if isBareIdent snakeCaseId then snakeCaseId
  else dqChar :: escapeDoubleQuotes snakeCaseId ++ [dqChar]

/-- Substring test, modelling JavaScript `String.prototype.includes`. -/
def hasSub (s pat : JStr) : Bool :=
  match s with
  | [] => pat.isEmpty
  | _ :: rest => pat.isPrefixOf s || hasSub rest pat

/-- Source `parenthesize`: wrap in parentheses unless the string contains
neither join token. -/
def parenthesize (s : JStr) : JStr :=
  if !hasSub s " AND ".data && !hasSub s " OR ".data then s
  else '(' :: s ++ [')']

/-- JavaScript `Array.prototype.join(sep)`. -/
def joinSep (sep : JStr) : List JStr → JStr
  | [] => []
  | [s] => s
  | s :: rest => s ++ sep ++ joinSep sep rest

mutual

/-- Compilation of a concrete expression: the `switch` body of the source
`toQueryString` after resolution.  The recursive source calls re-resolve their
(already concrete) argument, which is semantics- and output-preserving on
resolution results, so the recursion is faithfully structural.  The flag
selects the polarity: `false` compiles the expression itself, `true` compiles
the source `not` branch applied to it — `Not(Eq)` emits an inequality leaf,
`Not(And)`/`Not(Or)` push the negation to the children by De Morgan,
`Not(Not)` cancels.  The source fallback branch of the `not` case (emitting a
literal `NOT (...)`) is only reachable for a pending child and so has no
counterpart on concrete expressions. -/
def toQueryStringAux : Bool → CExpr → JStr
  | false, .eq k v => escapeIdent k ++ " = ".data ++ formatValue v
  | false, .not c => toQueryStringAux true c
  | false, .and cs => parenthesize (joinSep " AND ".data (toQueryStringAuxList false cs))
  | false, .or cs => parenthesize (joinSep " OR ".data (toQueryStringAuxList false cs))
  | true, .eq k v => escapeIdent k ++ " != ".data ++ formatValue v
  | true, .and cs => parenthesize (joinSep " OR ".data (toQueryStringAuxList true cs))
  | true, .or cs => parenthesize (joinSep " AND ".data (toQueryStringAuxList true cs))
  | true, .not c => toQueryStringAux false c

/-- Children compiled in order at the given polarity
(`children.map(child => toQueryString(child))` respectively
`children.map(child => toQueryString(not child))`). -/
def toQueryStringAuxList : Bool → List CExpr → List JStr
  | _, [] => []
  | b, c :: rest => toQueryStringAux b c :: toQueryStringAuxList b rest

end

/-- Compilation of a concrete expression (positive polarity). -/
def toQueryStringC (e : CExpr) : JStr := toQueryStringAux false e

/-- The source `not` branch of `toQueryString`, on the child of the `not`
node (negative polarity). -/
def toQueryStringNeg (child : CExpr) : JStr := toQueryStringAux true child

/-- Children compiled in order. -/
def toQueryStringList (cs : List CExpr) : List JStr := toQueryStringAuxList false cs

/-- Negated children compiled in order. -/
def toQueryStringNegList (cs : List CExpr) : List JStr := toQueryStringAuxList true cs

/-- Source `toQueryString(expr, clientIdentity)`: resolve pending nodes first;
`none` models the thrown error (`Cannot convert pending expression to SQL`). -/
def toQueryString (e : Expr) (clientIdentity : Option Identity) : Option JStr :=
  match resolvePendingExpression e ⟨clientIdentity⟩ with
  | none => none
  | some c => some (toQueryStringC c)

/-- Source `MembershipChange`. -/
inductive MembershipChange where
  | enter
  | leave
  | stayIn
  | stayOut
deriving DecidableEq

/-- The evaluation half of `classifyMembership`: evaluates the filter on the
old and new rows and applies the four-way truth table. -/
def classifyByEval (e : Expr) (oldRow newRow : Row) (clientIdentity : Option Identity) :
    MembershipChange :=
  let oldIn := evaluate e oldRow clientIdentity
  let newIn := evaluate e newRow clientIdentity
  if oldIn && !newIn then .leave
  else if !oldIn && newIn then .enter
  else if oldIn && newIn then .stayIn
  else .stayOut

/-- Source `classifyMembership`: no filter is always `stayIn`; a top-level
pending filter is resolved first and classifies as `stayOut` when
unresolvable; otherwise the four-way truth table on the two evaluations. -/
def classifyMembership (w : Option Expr) (oldRow newRow : Row)
    (clientIdentity : Option Identity) : MembershipChange :=
  match w with
  | none => .stayIn
  | some e =>
    match e with
    | .pending _ r =>
      match r ⟨clientIdentity⟩ with
      | none => .stayOut
      | some resolved => classifyByEval resolved.toExpr oldRow newRow clientIdentity
    | e => classifyByEval e oldRow newRow clientIdentity

/-- The internal bookkeeping property name `__stQueryTag`. -/
def tagKey : JStr := "__stQueryTag".data

/-- The filter test the event handlers perform:
`!(this.whereClause && !evaluate(this.whereClause, row, identity))`, i.e. a row
matches when there is no filter or the filter evaluates true. -/
def rowMatches (w : Option Expr) (clientIdentity : Option Identity) (row : Row) : Bool :=
  match w with
  | none => true
  | some e => evaluate e row clientIdentity

/-- Primary-key value comparison in `findRowIndex`: an `isEqual`-bearing value
(an `Identity`) is compared via `isEqual` (false against a non-identity);
otherwise strict (`===`) equality, false across runtime types.  (Falsy
primitives skip the `isEqual` branch in the source, reaching the same strict
comparison.) -/
def pkMatch (rPkValue targetPkValue : Val) : Bool :=
  match rPkValue with
  | .ident ri =>
    match targetPkValue with
    | .ident ti => ri.isEqual ti
    | _ => false
  | rv =>
    match rv, targetPkValue with
    | .str a, .str b => a == b
    | .num a, .num b => a == b
    | .bool a, .bool b => a == b
    | _, _ => false

/-- JavaScript `Array.prototype.findIndex`, with `none` for `-1`. -/
def findIdxA (pred : Row → Bool) : List Row → Option Nat
  | [] => none
  | r :: rest =>
    if pred r then some 0
    else (findIdxA pred rest).map (· + 1)

/-- Source `findRowIndex`: when a primary-key field is declared and present on
the target row, search the cache for a row whose value at that field matches;
otherwise (or when not found) fall back to the query tag: a row carrying a
truthy `__stQueryTag` equal to the last subscribed query reports index `0`
regardless of the cache contents; otherwise not found (`-1`,
modelled as `none`). -/
def findRowIndex (cache : List Row) (lastSubscribedQuery : Option JStr)
    (targetRow : Row) (pkField : Option JStr) : Option Nat :=
  let viaPk : Option Nat :=
    match pkField with
    | some pk =>
      match targetRow pk with
      | some targetPkValue =>
        findIdxA (fun r =>
          match r pk with
          | some rPkValue => pkMatch rPkValue targetPkValue
          | none => false) cache
      | none => none
    | none => none
  match viaPk with
  | some i => some i
  | none =>
    match targetRow tagKey with
    | some (.str t) =>
      if t ≠ [] ∧ lastSubscribedQuery = some t then some 0 else none
    | _ => none

/-- Source `removeAtIndex`: `slice(0, index) ++ slice(index + 1)`. -/
def removeAtIndex (rows : List Row) (index : Nat) : List Row :=
  rows.take index ++ rows.drop (index + 1)

/-- JavaScript `Object.assign(target, source)` on row objects: every property
of the source wins, properties only on the target survive. -/
def objectAssign (target source : Row) : Row :=
  fun k =>
    match source k with
    | some v => some v
    | none => target k

/-- Tagging `(row as any).__stQueryTag = query`. -/
def tagRow (query : JStr) (row : Row) : Row :=
  fun k => if k = tagKey then some (.str query) else row k

/-- The data fields of a row: the row with the internal bookkeeping tag
removed. -/
def untagRow (row : Row) : Row :=
  fun k => if k = tagKey then none else row k

/-- The in-place update `Object.assign(existingRow, newRow)` at a found index
(the element keeps its position; `[...rows]` re-creation is content-neutral). -/
def assignAt (rows : List Row) (index : Nat) (newRow : Row) : List Row :=
  match rows.get? index with
  | some existingRow => rows.set index (objectAssign existingRow newRow)
  | none => rows

/-- Source `onInsert` handler body: reject on filter, deduplicate via
`findRowIndex`, else tag the row, fire callbacks (the returned `Bool`), and
append.  `lastSubscribedQuery` is the subscribed query string `q`. -/
def onInsertRow (w : Option Expr) (clientIdentity : Option Identity) (q : JStr)
    (pkField : Option JStr) (cache : List Row) (row : Row) : List Row × Bool :=
  if !rowMatches w clientIdentity row then (cache, false)
  else
    match findRowIndex cache (some q) row pkField with
    | some _ => (cache, false)
    | none => (cache ++ [tagRow q row], true)

/-- Source `onDelete` handler body: reject on filter; otherwise the delete
callbacks fire (the returned `Bool`) and the row found by `findRowIndex`, if
any, is removed. -/
def onDeleteRow (w : Option Expr) (clientIdentity : Option Identity) (q : JStr)
    (pkField : Option JStr) (cache : List Row) (row : Row) : List Row × Bool :=
  if !rowMatches w clientIdentity row then (cache, false)
  else
    (match findRowIndex cache (some q) row pkField with
     | some i => removeAtIndex cache i
     | none => cache,
     true)

/-- Source `onUpdate` handler body: classify membership; `enter` appends the
new row (untagged), `leave` removes the old row when found, `stayIn` copies
the new row's fields onto the found cache row in place, `stayOut` is a no-op. -/
def onUpdateRow (w : Option Expr) (clientIdentity : Option Identity) (q : JStr)
    (pkField : Option JStr) (cache : List Row) (oldRow newRow : Row) : List Row :=
  match classifyMembership w oldRow newRow clientIdentity with
  | .enter => cache ++ [newRow]
  | .leave =>
    match findRowIndex cache (some q) oldRow pkField with
    | some i => removeAtIndex cache i
    | none => cache
  | .stayIn =>
    match findRowIndex cache (some q) oldRow pkField with
    | some i => assignAt cache i newRow
    | none => cache
  | .stayOut => cache

/-- Source `initializeFromCache`: iterate the connection's local table mirror,
retain the rows matching the filter, and tag each with the subscribed query. -/
def initializeFromCache (w : Option Expr) (clientIdentity : Option Identity)
    (q : JStr) (mirror : List Row) : List Row :=
  (mirror.filter (rowMatches w clientIdentity)).map (tagRow q)

/-- A row-change notification from the connection. -/
inductive TableEvent where
  | insert (row : Row)
  | delete (row : Row)
  | update (oldRow newRow : Row)

/-- Modelled from the spec: the connection's local table mirror (the SDK
`tableCache`, an external collaborator the spec treats as a black box) applied
to one notification, for a table with primary-key field `pkField`: an insert
adds the row unless its key is already present (a redelivered duplicate), a
delete removes the row with the event row's key, an update replaces it with
the new row. -/
def stepMirror (pkField : JStr) (mirror : List Row) : TableEvent → List Row
  | .insert r =>
    if mirror.any (fun m => m pkField == r pkField) then mirror else mirror ++ [r]
  | .delete r => mirror.filter (fun m => !(m pkField == r pkField))
  | .update oldRow newRow =>
    mirror.map (fun m => if m pkField == oldRow pkField then newRow else m)

/-- The cache transition of the registered listeners for one notification. -/
def stepCache (w : Option Expr) (clientIdentity : Option Identity) (q : JStr)
    (pkField : JStr) (cache : List Row) : TableEvent → List Row
  | .insert r => (onInsertRow w clientIdentity q (some pkField) cache r).1
  | .delete r => (onDeleteRow w clientIdentity q (some pkField) cache r).1
  | .update oldRow newRow =>
    onUpdateRow w clientIdentity q (some pkField) cache oldRow newRow

/-- One step of the coupled (mirror, cache) system. -/
def stepSystem (w : Option Expr) (clientIdentity : Option Identity) (q : JStr)
    (pkField : JStr) (s : List Row × List Row) (e : TableEvent) : List Row × List Row :=
  (stepMirror pkField s.1 e, stepCache w clientIdentity q pkField s.2 e)

/-- Well-formedness of a mirror state for a primary-keyed table: every row is
an untagged wire row with its key present, and keys are unique. -/
def MirrorWF (pkField : JStr) (mirror : List Row) : Prop :=
  (∀ r ∈ mirror, r tagKey = none ∧ (r pkField).isSome) ∧
    (mirror.map (fun r => r pkField)).Nodup

/-- Well-formedness of one notification against the current mirror: event rows
are untagged wire rows carrying their primary key; an insert is fresh or an
exact redelivery; a delete's and update's event row agrees with the mirror row
of the same key; an update targets a present row, keeps its key, and the new
row's properties cover the old row's. -/
def EventWF (pkField : JStr) (mirror : List Row) : TableEvent → Prop
  | .insert r =>
    r tagKey = none ∧ (r pkField).isSome ∧
      ((∃ m ∈ mirror, m pkField = r pkField) → r ∈ mirror)
  | .delete r =>
    r tagKey = none ∧ (r pkField).isSome ∧
      (∀ m ∈ mirror, m pkField = r pkField → m = r)
  | .update oldRow newRow =>
    oldRow tagKey = none ∧ newRow tagKey = none ∧
      (oldRow pkField).isSome ∧ oldRow pkField = newRow pkField ∧
      oldRow ∈ mirror ∧ (∀ m ∈ mirror, m pkField = oldRow pkField → m = oldRow) ∧
      (∀ k, newRow k = none → oldRow k = none)

/-- Well-formedness of a notification sequence against an evolving mirror. -/
def EventsWF (pkField : JStr) : List Row → List TableEvent → Prop
  | _, [] => True
  | mirror, e :: rest => EventWF pkField mirror e ∧ EventsWF pkField (stepMirror pkField mirror e) rest

mutual

/-- What `resolvePendingExpression` computes on an already-concrete
expression: a bottom-up re-normalization through the smart constructors. -/
def resolveConcrete : CExpr → CExpr
  | .eq k v => .eq k v
  | .not c => .not (resolveConcrete c)
  | .and cs => andCtorC (resolveConcreteList cs)
  | .or cs => orCtorC (resolveConcreteList cs)

/-- List version of `resolveConcrete`. -/
def resolveConcreteList : List CExpr → List CExpr
  | [] => []
  | c :: rest => resolveConcrete c :: resolveConcreteList rest

end

mutual

theorem resolve_toExpr (c : CExpr) (ctx : PendingResolutionContext) :
    resolvePendingExpression c.toExpr ctx = some (resolveConcrete c) := by
  cases c with
  | eq k v => rfl
  | not c =>
    simp [CExpr.toExpr, resolvePendingExpression, resolve_toExpr c ctx, resolveConcrete]
  | and cs =>
    simp [CExpr.toExpr, resolvePendingExpression, resolveChildren_toExpr cs ctx, resolveConcrete]
  | or cs =>
    simp [CExpr.toExpr, resolvePendingExpression, resolveChildren_toExpr cs ctx, resolveConcrete]

theorem resolveChildren_toExpr (cs : List CExpr) (ctx : PendingResolutionContext) :
    resolveChildren (CExpr.toExpr.toExprList cs) ctx = some (resolveConcreteList cs) := by
  cases cs with
  | nil => rfl
  | cons c rest =>
    simp [CExpr.toExpr.toExprList, resolveChildren, resolve_toExpr c ctx,
      resolveChildren_toExpr rest ctx, resolveConcreteList]

end

theorem evalAll_append (a b : List CExpr) (row : Row) :
    evalAll (a ++ b) row = (evalAll a row && evalAll b row) := by
  induction a with
  | nil => simp [evalAll]
  | cons c rest ih => simp [evalAll, ih, Bool.and_assoc]

theorem evalAny_append (a b : List CExpr) (row : Row) :
    evalAny (a ++ b) row = (evalAny a row || evalAny b row) := by
  induction a with
  | nil => simp [evalAny]
  | cons c rest ih => simp [evalAny, ih, Bool.or_assoc]

theorem evalAll_flatten (cs : List CExpr) (row : Row) :
    evalAll (cs.foldr
      (fun c acc => match c with | .and cs => cs ++ acc | c => c :: acc) []) row =
    evalAll cs row := by
  induction cs with
  | nil => rfl
  | cons c rest ih =>
    cases c with
    | and cs' => simp [evalAll, evalC, evalAll_append, ih]
    | eq k v => simp [evalAll, ih]
    | not c' => simp [evalAll, ih]
    | or cs' => simp [evalAll, ih]

theorem evalAny_flatten (cs : List CExpr) (row : Row) :
    evalAny (cs.foldr
      (fun c acc => match c with | .or cs => cs ++ acc | c => c :: acc) []) row =
    evalAny cs row := by
  induction cs with
  | nil => rfl
  | cons c rest ih =>
    cases c with
    | or cs' => simp [evalAny, evalC, evalAny_append, ih]
    | eq k v => simp [evalAny, ih]
    | not c' => simp [evalAny, ih]
    | and cs' => simp [evalAny, ih]

/-- The smart `and` constructor evaluates as the conjunction of its inputs. -/
theorem evalC_andCtorC (cs : List CExpr) (row : Row) :
    evalC (andCtorC cs) row = evalAll cs row := by
  unfold andCtorC
  have h := evalAll_flatten cs row
  cases hf : cs.foldr
      (fun c acc => match c with | .and cs => cs ++ acc | c => c :: acc) [] with
  | nil => rw [hf] at h; simpa [evalC] using h
  | cons x xs =>
    rw [hf] at h
    cases xs with
    | nil => simpa [evalAll] using h
    | cons y ys => simpa [evalC] using h

/-- The smart `or` constructor evaluates as the disjunction of its inputs. -/
theorem evalC_orCtorC (cs : List CExpr) (row : Row) :
    evalC (orCtorC cs) row = evalAny cs row := by
  unfold orCtorC
  have h := evalAny_flatten cs row
  cases hf : cs.foldr
      (fun c acc => match c with | .or cs => cs ++ acc | c => c :: acc) [] with
  | nil => rw [hf] at h; simpa [evalC] using h
  | cons x xs =>
    rw [hf] at h
    cases xs with
    | nil => simpa [evalAny] using h
    | cons y ys => simpa [evalC] using h

mutual

/-- Re-normalizing a concrete expression preserves its evaluation; this is why
the self-recursive source `evaluate` (which re-resolves concrete children)
coincides with the structural `evalC`. -/
theorem evalC_resolveConcrete (c : CExpr) (row : Row) :
    evalC (resolveConcrete c) row = evalC c row := by
  cases c with
  | eq k v => rfl
  | not c => simp [resolveConcrete, evalC, evalC_resolveConcrete c row]
  | and cs =>
    simp [resolveConcrete, evalC_andCtorC, evalAll_resolveConcreteList cs row, evalC]
  | or cs =>
    simp [resolveConcrete, evalC_orCtorC, evalAny_resolveConcreteList cs row, evalC]

theorem evalAll_resolveConcreteList (cs : List CExpr) (row : Row) :
    evalAll (resolveConcreteList cs) row = evalAll cs row := by
  cases cs with
  | nil => rfl
  | cons c rest =>
    simp [resolveConcreteList, evalAll, evalC_resolveConcrete c row,
      evalAll_resolveConcreteList rest row]

theorem evalAny_resolveConcreteList (cs : List CExpr) (row : Row) :
    evalAny (resolveConcreteList cs) row = evalAny cs row := by
  cases cs with
  | nil => rfl
  | cons c rest =>
    simp [resolveConcreteList, evalAny, evalC_resolveConcrete c row,
      evalAny_resolveConcreteList rest row]

end

/-- Evaluating an injected concrete expression through the full evaluator
agrees with structural evaluation. -/
theorem evaluate_toExpr (c : CExpr) (row : Row) (clientIdentity : Option Identity) :
    evaluate c.toExpr row clientIdentity = evalC c row := by
  simp [evaluate, resolve_toExpr, evalC_resolveConcrete]

theorem classifyByEval_table (e : Expr) (oldRow newRow : Row) (ci : Option Identity) :
    classifyByEval e oldRow newRow ci =
      match evaluate e oldRow ci, evaluate e newRow ci with
      | true, false => .leave
      | false, true => .enter
      | true, true => .stayIn
      | false, false => .stayOut := by
  simp only [classifyByEval]
  cases evaluate e oldRow ci <;> cases evaluate e newRow ci <;> rfl

/-- C2: `classifyMembership` returns exactly one of the four classifications
(immediate from its result type); with no filter it returns `stayIn`, and
otherwise it matches the truth table on the filter's evaluation at the old and
new rows — including the unresolvable case, where both evaluations are `false`
and the result is `stayOut`. -/
theorem classifyMembership_matches_truth_table (w : Option Expr) (oldRow newRow : Row)
    (ci : Option Identity) :
    classifyMembership w oldRow newRow ci =
      match w with
      | none => .stayIn
      | some e =>
        match evaluate e oldRow ci, evaluate e newRow ci with
        | true, false => .leave
        | false, true => .enter
        | true, true => .stayIn
        | false, false => .stayOut := by
  cases w with
  | none => rfl
  | some e =>
    cases e with
    | eq k v => exact classifyByEval_table _ _ _ _
    | not c => exact classifyByEval_table _ _ _ _
    | and cs => exact classifyByEval_table _ _ _ _
    | or cs => exact classifyByEval_table _ _ _ _
    | pending k r =>
      cases hr : r ⟨ci⟩ with
      | none =>
        simp [classifyMembership, hr, evaluate, resolvePendingExpression]
      | some rc =>
        have h1 : evaluate (.pending k r) oldRow ci = evalC rc oldRow := by
          simp [evaluate, resolvePendingExpression, hr]
        have h2 : evaluate (.pending k r) newRow ci = evalC rc newRow := by
          simp [evaluate, resolvePendingExpression, hr]
        simp only [classifyMembership, hr, classifyByEval_table, evaluate_toExpr, h1, h2]

mutual

/-- An expression contains (anywhere in the tree) a pending node whose
`resolve` yields no result under the given context. -/
def hasUnresolvablePending : Expr → PendingResolutionContext → Bool
  | .pending _ r, ctx => (r ctx).isNone
  | .not c, ctx => hasUnresolvablePending c ctx
  | .and cs, ctx => hasUnresolvableChild cs ctx
  | .or cs, ctx => hasUnresolvableChild cs ctx
  | .eq _ _, _ => false

/-- Some list member contains an unresolvable pending node. -/
def hasUnresolvableChild : List Expr → PendingResolutionContext → Bool
  | [], _ => false
  | c :: rest, ctx => hasUnresolvablePending c ctx || hasUnresolvableChild rest ctx

end

mutual

theorem resolve_of_unresolvable (e : Expr) (ctx : PendingResolutionContext)
    (h : hasUnresolvablePending e ctx = true) :
    resolvePendingExpression e ctx = none := by
  cases e with
  | eq k v => simp [hasUnresolvablePending] at h
  | pending k r =>
    simp only [hasUnresolvablePending, Option.isNone_iff_eq_none] at h
    simpa [resolvePendingExpression] using h
  | not c =>
    have := resolve_of_unresolvable c ctx (by simpa [hasUnresolvablePending] using h)
    simp [resolvePendingExpression, this]
  | and cs =>
    have := resolveChildren_of_unresolvable cs ctx (by simpa [hasUnresolvablePending] using h)
    simp [resolvePendingExpression, this]
  | or cs =>
    have := resolveChildren_of_unresolvable cs ctx (by simpa [hasUnresolvablePending] using h)
    simp [resolvePendingExpression, this]

theorem resolveChildren_of_unresolvable (cs : List Expr) (ctx : PendingResolutionContext)
    (h : hasUnresolvableChild cs ctx = true) :
    resolveChildren cs ctx = none := by
  cases cs with
  | nil => simp [hasUnresolvableChild] at h
  | cons c rest =>
    simp only [hasUnresolvableChild, Bool.or_eq_true] at h
    rcases h with h | h
    · simp [resolveChildren, resolve_of_unresolvable c ctx h]
    · cases hc : resolvePendingExpression c ctx with
      | none => simp [resolveChildren, hc]
      | some rc => simp [resolveChildren, hc, resolveChildren_of_unresolvable rest ctx h]

end

/-- C3: an expression containing a pending node that cannot be resolved under
the given context — anywhere in the tree, including inside `and`/`or`/`not` —
evaluates to `false` on every row (and, being a total function, never
throws), while `toQueryString` on the same expression signals the error case
(`none`, the thrown exception) instead of returning a string. -/
theorem unresolvable_evaluates_false_but_compile_fails (e : Expr)
    (ci : Option Identity) (row : Row)
    (h : hasUnresolvablePending e ⟨ci⟩ = true) :
    evaluate e row ci = false ∧ toQueryString e ci = none := by
  have hr := resolve_of_unresolvable e ⟨ci⟩ h
  constructor
  · simp [evaluate, hr]
  · simp [toQueryString, hr]

/-- Example expression for the C3 witness: a conjunction whose second conjunct
is a pending identity comparison, with no client identity available. -/
def unresolvableExample : Expr :=
  andCtor [eqCtor "groupchatId".data (some (.num 7)), eqCtor "owner".data none]

/-- Witness for C3 at a concrete unresolvable expression. -/
theorem unresolvable_evaluates_false_but_compile_fails_witness :
    hasUnresolvablePending unresolvableExample ⟨none⟩ = true ∧
      (evaluate unresolvableExample (fun _ => none) none = false ∧
        toQueryString unresolvableExample none = none) :=
  ⟨by rfl,
    unresolvable_evaluates_false_but_compile_fails unresolvableExample none
      (fun _ => none) (by rfl)⟩

/-- C9: an `eq` leaf whose key is absent from the row under both lookups the
evaluator tries (the exact key and, when it contains an underscore, the
camelCase variant) evaluates to `false` for every filter value, and the
negation of that leaf therefore evaluates to `true`. -/
theorem eq_absent_key_false_not_true (k : JStr) (v : Val) (row : Row)
    (ci : Option Identity)
    (h1 : row k = none) (h2 : row (snakeToCamelCase k) = none) :
    evaluate (Expr.eq k v) row ci = false ∧
      evaluate (Expr.not (Expr.eq k v)) row ci = true := by
  have hget : getRowValue row k = none := by
    simp [getRowValue, h1, h2]
  have hev : evalEq (getRowValue row k) v = false := by
    rw [hget]; cases v <;> rfl
  constructor
  · simp [evaluate, resolvePendingExpression, evalC, hev]
  · simp [evaluate, resolvePendingExpression, evalC, hev]

/-- Witness for C9: the row has only `other_field`; the filtered column
`groupchat_id` (and its camelCase variant) is absent. -/
theorem eq_absent_key_false_not_true_witness :
    ((fun k => if k = "otherField".data then some (.num 1) else none) : Row)
        "groupchat_id".data = none ∧
      evaluate (Expr.eq "groupchat_id".data (.num 7))
        (fun k => if k = "otherField".data then some (.num 1) else none) none = false ∧
      evaluate (Expr.not (Expr.eq "groupchat_id".data (.num 7)))
        (fun k => if k = "otherField".data then some (.num 1) else none) none = true := by
  refine ⟨by rfl, ?_⟩
  exact eq_absent_key_false_not_true "groupchat_id".data (.num 7)
    (fun k => if k = "otherField".data then some (.num 1) else none) none
    (by rfl) (by rfl)

/-- A row whose properties use snake_case names, for the C7 counterexample. -/
def snakeCaseRow : Row :=
  fun k => if k = "groupchat_id".data then some (.num 7) else none

/-- C7 counterexample: the evaluator does not retry a camelCase key as
snake_case.  The row holds `groupchat_id = 7` (which is exactly the snake_case
conversion of the filter key), yet `Eq(groupchatId, 7)` evaluates to `false`
because the only retry implemented is snake_case → camelCase. -/
theorem eq_no_camel_to_snake_retry :
    camelToSnakeCase "groupchatId".data = "groupchat_id".data ∧
      snakeCaseRow "groupchat_id".data = some (.num 7) ∧
      evaluate (Expr.eq "groupchatId".data (.num 7)) snakeCaseRow none = false := by
  refine ⟨by rfl, by rfl, by rfl⟩

/-- C7 amended: the `eq` lookup first uses the key's exact spelling; when the
property is absent it retries only in one direction — a key containing an
underscore is retried under its camelCase conversion — and a key without an
underscore (in particular a camelCase key) is not retried at all. -/
theorem getRowValue_retry_one_direction (row : Row) (k : JStr) :
    ((row k).isSome → getRowValue row k = row k) ∧
      (row k = none → '_' ∈ k → getRowValue row k = row (snakeToCamelCase k)) ∧
      (row k = none → '_' ∉ k → getRowValue row k = none) := by
  refine ⟨?_, ?_, ?_⟩
  · intro h
    cases hv : row k with
    | none => rw [hv] at h; simp at h
    | some v => simp [getRowValue, hv]
  · intro h1 h2
    simp [getRowValue, h1, h2]
  · intro h1 h2
    simp [getRowValue, h1, h2]

/-- Witness for the amended C7 at concrete rows and keys: the snake_case key
`groupchat_id` absent from a camelCase row is found via the camelCase retry,
and the exact-spelling lookup takes precedence when present. -/
theorem getRowValue_retry_one_direction_witness :
    (((fun k => if k = "groupchatId".data then some (.num 7) else none) : Row)
        "groupchat_id".data = none) ∧
      getRowValue (fun k => if k = "groupchatId".data then some (.num 7) else none)
        "groupchat_id".data =
        (fun k => if k = "groupchatId".data then some (.num 7) else none : Row)
          (snakeToCamelCase "groupchat_id".data) ∧
      getRowValue snakeCaseRow "groupchat_id".data = snakeCaseRow "groupchat_id".data := by
  refine ⟨by rfl, ?_, ?_⟩
  · exact (getRowValue_retry_one_direction
      (fun k => if k = "groupchatId".data then some (.num 7) else none)
      "groupchat_id".data).2.1 (by rfl) (by decide)
  · exact (getRowValue_retry_one_direction snakeCaseRow "groupchat_id".data).1 (by rfl)

/-- Whether an expression is an `and` node. -/
def Expr.isAnd : Expr → Bool
  | .and _ => true
  | _ => false

/-- Top-level flattening invariant the constructors maintain: an `and` node
has no `and` node directly among its children (spec: nested `and` are
pre-flattened at construction time, never nested two deep). -/
def topFlatAnd : Expr → Bool
  | .and cs => cs.all (fun c => !c.isAnd)
  | _ => true

/-- One level of the flattening the `and` constructor applies to one child. -/
def flatOneAnd : Expr → List Expr
  | .and cs => cs
  | e => [e]

/-- The flattening fold of the `and` constructor. -/
def flattenAnd (children : List Expr) : List Expr :=
  children.foldr (fun c acc => match c with | .and cs => cs ++ acc | c => c :: acc) []

/-- The collapse step of the `and` constructor. -/
def collapseAnd : List Expr → Expr
  | [] => .and []
  | [x] => x
  | xs => .and xs

theorem andCtor_eq_collapse (children : List Expr) :
    andCtor children = collapseAnd (flattenAnd children) := rfl

theorem flattenAnd_cons (x : Expr) (rest : List Expr) :
    flattenAnd (x :: rest) = flatOneAnd x ++ flattenAnd rest := by
  cases x <;> rfl

theorem flatOneAnd_not_and (e : Expr) (he : topFlatAnd e = true) :
    ∀ x ∈ flatOneAnd e, x.isAnd = false := by
  cases e with
  | and cs =>
    intro x hx
    simp only [topFlatAnd, List.all_eq_true] at he
    simpa using he x hx
  | eq k v => intro x hx; simp [flatOneAnd] at hx; simp [hx, Expr.isAnd]
  | not c => intro x hx; simp [flatOneAnd] at hx; simp [hx, Expr.isAnd]
  | or cs => intro x hx; simp [flatOneAnd] at hx; simp [hx, Expr.isAnd]
  | pending k r => intro x hx; simp [flatOneAnd] at hx; simp [hx, Expr.isAnd]

/-- The `and`-evaluation of a singleton list of children is the child's own
evaluation. -/
theorem evaluate_and_singleton (y : Expr) (row : Row) (ci : Option Identity) :
    evaluate (.and [y]) row ci = evaluate y row ci := by
  unfold evaluate
  cases hy : resolvePendingExpression y ⟨ci⟩ with
  | none => simp [resolvePendingExpression, resolveChildren, hy]
  | some ry =>
    simp [resolvePendingExpression, resolveChildren, hy, evalC_andCtorC, evalAll]

/-- C8: the `and` constructor flattens one level of nesting, so that (for
inputs satisfying the constructors' flattening invariant)
`And(And(a,b), c)` builds the same tree as `And(a,b,c)`; `And()` evaluates to
`true` on every row, `Or()` to `false`, and `And(x)` evaluates identically to
`x` alone. -/
theorem andCtor_flattening_and_units (a b c x : Expr) (row : Row) (ci : Option Identity)
    (ha : topFlatAnd a = true) (hb : topFlatAnd b = true) :
    andCtor [andCtor [a, b], c] = andCtor [a, b, c] ∧
      evaluate (andCtor []) row ci = true ∧
      evaluate (orCtor []) row ci = false ∧
      evaluate (andCtor [x]) row ci = evaluate x row ci := by
  refine ⟨?_, by rfl, by rfl, ?_⟩
  · have hfab : flattenAnd [a, b] = flatOneAnd a ++ flatOneAnd b := by
      rw [flattenAnd_cons, flattenAnd_cons]; simp [flattenAnd]
    have habc : flattenAnd [a, b, c] = (flatOneAnd a ++ flatOneAnd b) ++ flatOneAnd c := by
      rw [flattenAnd_cons, flattenAnd_cons, flattenAnd_cons]
      simp [flattenAnd, List.append_assoc]
    have hmem : ∀ y ∈ flatOneAnd a ++ flatOneAnd b, y.isAnd = false := by
      intro y hy
      rcases List.mem_append.mp hy with h | h
      · exact flatOneAnd_not_and a ha y h
      · exact flatOneAnd_not_and b hb y h
    rw [andCtor_eq_collapse [a, b], hfab]
    rw [andCtor_eq_collapse, andCtor_eq_collapse [a, b, c], habc]
    cases hfabl : flatOneAnd a ++ flatOneAnd b with
    | nil =>
      simp [collapseAnd, flattenAnd_cons, flatOneAnd, flattenAnd]
    | cons s rest =>
      cases rest with
      | nil =>
        have hs : s.isAnd = false := by
          apply hmem; rw [hfabl]; simp
        cases s with
        | and cs => simp [Expr.isAnd] at hs
        | eq k v => simp [flattenAnd_cons, flattenAnd, flatOneAnd, collapseAnd]
        | not c₁ => simp [flattenAnd_cons, flattenAnd, flatOneAnd, collapseAnd]
        | or cs => simp [flattenAnd_cons, flattenAnd, flatOneAnd, collapseAnd]
        | pending k r => simp [flattenAnd_cons, flattenAnd, flatOneAnd, collapseAnd]
      | cons t rest₂ =>
        simp only [collapseAnd, flattenAnd_cons, flatOneAnd, flattenAnd]
        simp [collapseAnd]
  · rw [andCtor_eq_collapse, flattenAnd_cons]
    simp only [flattenAnd, List.append_nil]
    cases hx : flatOneAnd x with
    | nil =>
      cases x with
      | and cs =>
        simp only [flatOneAnd] at hx
        subst hx
        rfl
      | eq k v => simp [flatOneAnd] at hx
      | not c => simp [flatOneAnd] at hx
      | or cs => simp [flatOneAnd] at hx
      | pending k r => simp [flatOneAnd] at hx
    | cons y rest =>
      cases rest with
      | nil =>
        cases x with
        | and cs =>
          simp only [flatOneAnd] at hx
          subst hx
          simpa [collapseAnd] using (evaluate_and_singleton y row ci).symm
        | eq k v =>
          simp only [flatOneAnd, List.cons.injEq] at hx
          simp [collapseAnd, hx.1.symm]
        | not c =>
          simp only [flatOneAnd, List.cons.injEq] at hx
          simp [collapseAnd, hx.1.symm]
        | or cs =>
          simp only [flatOneAnd, List.cons.injEq] at hx
          simp [collapseAnd, hx.1.symm]
        | pending k r =>
          simp only [flatOneAnd, List.cons.injEq] at hx
          simp [collapseAnd, hx.1.symm]
      | cons z rest₂ =>
        cases x with
        | and cs =>
          simp only [flatOneAnd] at hx
          subst hx
          simp only [List.foldr_nil, List.append_nil]
          rfl
        | eq k v => simp [flatOneAnd] at hx
        | not c => simp [flatOneAnd] at hx
        | or cs => simp [flatOneAnd] at hx
        | pending k r => simp [flatOneAnd] at hx

/-- Witness for C8 at concrete expressions and a concrete row. -/
theorem andCtor_flattening_and_units_witness :
    topFlatAnd (Expr.eq "a".data (.num 1)) = true ∧
      (andCtor [andCtor [Expr.eq "a".data (.num 1), Expr.eq "b".data (.num 2)],
          Expr.eq "c".data (.num 3)] =
        andCtor [Expr.eq "a".data (.num 1), Expr.eq "b".data (.num 2),
          Expr.eq "c".data (.num 3)] ∧
        evaluate (andCtor []) (fun _ => none) none = true ∧
        evaluate (orCtor []) (fun _ => none) none = false ∧
        evaluate (andCtor [Expr.or [Expr.eq "a".data (.num 1)]]) (fun _ => none) none =
          evaluate (Expr.or [Expr.eq "a".data (.num 1)]) (fun _ => none) none) :=
  ⟨by rfl,
    andCtor_flattening_and_units (Expr.eq "a".data (.num 1)) (Expr.eq "b".data (.num 2))
      (Expr.eq "c".data (.num 3)) (Expr.or [Expr.eq "a".data (.num 1)])
      (fun _ => none) none (by rfl) (by rfl)⟩

/-- A list is a prefix of itself extended on the right. -/
theorem isPrefixOf_append_self (l t : JStr) : l.isPrefixOf (l ++ t) = true := by
  induction l with
  | nil => simp [List.isPrefixOf]
  | cons c rest ih => simp [List.isPrefixOf, ih]

theorem isPrefixOf_cons_append (c : Char) (rest t : JStr) :
    (c :: rest).isPrefixOf (c :: (rest ++ t)) = true := by
  simp

/-- A string containing a separator between two parts contains that
separator as a substring. -/
theorem hasSub_middle (a sep b : JStr) : hasSub (a ++ (sep ++ b)) sep = true := by
  induction a with
  | nil =>
    cases sep with
    | nil =>
      cases b with
      | nil => rfl
      | cons x xs => simp [hasSub, List.isPrefixOf]
    | cons c rest =>
      simp [hasSub, isPrefixOf_cons_append]
  | cons x xs ih =>
    simp only [List.cons_append, hasSub, List.append_eq]
    rw [ih]
    simp

/-- The C5 counterexample: compiling `Not(And(Eq(a,1), Eq(b,2)))` does not
yield the unparenthesized string the claim states; it yields the parenthesized
form, because `parenthesize` wraps whenever the joined result contains any
join token (not only a join of the other kind). -/
theorem notAnd_compiles_parenthesized :
    toQueryString
        (notCtor (andCtor [eqCtor "a".data (some (.num 1)), eqCtor "b".data (some (.num 2))]))
        none ≠ some "a != 1 OR b != 2".data ∧
      toQueryString
        (notCtor (andCtor [eqCtor "a".data (some (.num 1)), eqCtor "b".data (some (.num 2))]))
        none = some "(a != 1 OR b != 2)".data := by
  exact ⟨by decide, by decide⟩

/-- C5 amended: `Not(And(Eq(a,1), Eq(b,2)))` compiles to
`(a != 1 OR b != 2)` with the two compiled sides in the children's order, and
in general a compiled `And`/`Or` join of two or more children is always
parenthesized, since the joined result then contains its own join token
(`parenthesize` wraps on any contained join token, of either kind). -/
theorem join_parenthesization (c₁ c₂ : CExpr) (rest : List CExpr) :
    toQueryStringC (.and (c₁ :: c₂ :: rest)) =
        '(' :: joinSep " AND ".data (toQueryStringList (c₁ :: c₂ :: rest)) ++ [')'] ∧
      toQueryStringC (.or (c₁ :: c₂ :: rest)) =
        '(' :: joinSep " OR ".data (toQueryStringList (c₁ :: c₂ :: rest)) ++ [')'] ∧
      toQueryStringNeg (.and (c₁ :: c₂ :: rest)) =
        '(' :: joinSep " OR ".data (toQueryStringNegList (c₁ :: c₂ :: rest)) ++ [')'] ∧
      toQueryString
        (notCtor (andCtor [eqCtor "a".data (some (.num 1)), eqCtor "b".data (some (.num 2))]))
        none = some "(a != 1 OR b != 2)".data := by
  have hAnd : ∀ (s t : JStr) (ss : List JStr),
      parenthesize (joinSep " AND ".data (s :: t :: ss)) =
        '(' :: joinSep " AND ".data (s :: t :: ss) ++ [')'] := by
    intro s t ss
    have : hasSub (joinSep " AND ".data (s :: t :: ss)) " AND ".data = true := by
      show hasSub (s ++ " AND ".data ++ joinSep " AND ".data (t :: ss)) _ = true
      rw [List.append_assoc]
      exact hasSub_middle _ _ _
    simp [parenthesize, this]
  have hOr : ∀ (s t : JStr) (ss : List JStr),
      parenthesize (joinSep " OR ".data (s :: t :: ss)) =
        '(' :: joinSep " OR ".data (s :: t :: ss) ++ [')'] := by
    intro s t ss
    have : hasSub (joinSep " OR ".data (s :: t :: ss)) " OR ".data = true := by
      show hasSub (s ++ " OR ".data ++ joinSep " OR ".data (t :: ss)) _ = true
      rw [List.append_assoc]
      exact hasSub_middle _ _ _
    simp [parenthesize, this]
  refine ⟨?_, ?_, ?_, by decide⟩
  · show parenthesize (joinSep " AND ".data (toQueryStringAuxList false (c₁ :: c₂ :: rest))) = _
    show parenthesize (joinSep " AND ".data
      (toQueryStringAux false c₁ :: toQueryStringAux false c₂ ::
        toQueryStringAuxList false rest)) = _
    rw [hAnd]
    rfl
  · show parenthesize (joinSep " OR ".data
      (toQueryStringAux false c₁ :: toQueryStringAux false c₂ ::
        toQueryStringAuxList false rest)) = _
    rw [hOr]
    rfl
  · show parenthesize (joinSep " OR ".data
      (toQueryStringAux true c₁ :: toQueryStringAux true c₂ ::
        toQueryStringAuxList true rest)) = _
    rw [hOr]
    rfl

/-- Scanner state for locating an operator-position `NOT` token: outside any
literal, inside a single-quoted string literal, or inside a double-quoted
identifier. -/
inductive QState where
  | out
  | inS
  | inD
deriving DecidableEq

/-- Whether the string begins with the three characters `NOT`. -/
def startsNOT : JStr → Bool
  | c₁ :: c₂ :: c₃ :: _ => c₁ = 'N' && c₂ = 'O' && c₃ = 'T'
  | _ => false

/-- Scan for a literal `NOT` occurring outside quoted regions: returns `none`
when one is found, otherwise the final quoting state.  Quote characters toggle
the matching region (doubled quotes inside a literal re-enter immediately). -/
def scanF : QState → JStr → Option QState
  | st, [] => some st
  | .inS, c :: rest => scanF (if c = sqChar then .out else .inS) rest
  | .inD, c :: rest => scanF (if c = dqChar then .out else .inD) rest
  | .out, c :: rest =>
    if c = sqChar then scanF .inS rest
    else if c = dqChar then scanF .inD rest
    else if startsNOT (c :: rest) then none
    else scanF .out rest

/-- A string contains a literal negation operator token: the characters `NOT`
in sequence outside every quoted string literal and quoted identifier. -/
def hasNOTtok (s : JStr) : Bool := (scanF .out s).isNone

/-- The last character is neither `N` nor `O` (so no cross-boundary `NOT` can
start inside this string and finish in the next). -/
def endOk : JStr → Bool
  | [] => true
  | [c] => !(c = 'N' || c = 'O')
  | _ :: rest => endOk rest

theorem endOk_cons_cons (c d : Char) (rest : JStr) :
    endOk (c :: d :: rest) = endOk (d :: rest) := rfl

theorem endOk_append (a b : JStr) (hb : b ≠ []) : endOk (a ++ b) = endOk b := by
  induction a with
  | nil => rfl
  | cons c a' ih =>
    cases a' with
    | nil =>
      cases b with
      | nil => exact absurd rfl hb
      | cons x xs => exact ih
    | cons d a'' =>
      simpa [endOk_cons_cons] using ih

theorem scanF_append (b : JStr) :
    ∀ (a : JStr) (q st : QState), scanF q a = some st → endOk a = true →
      scanF q (a ++ b) = scanF st b := by
  intro a
  induction a with
  | nil =>
    intro q st h _
    simp only [scanF, Option.some.injEq] at h
    subst h
    rfl
  | cons c a' ih =>
    intro q st h hend
    have hend' : a' = [] ∨ endOk a' = true := by
      cases a' with
      | nil => exact Or.inl rfl
      | cons d a'' => exact Or.inr (by simpa [endOk_cons_cons] using hend)
    cases q with
    | inS =>
      rw [List.cons_append]
      show scanF (if c = sqChar then .out else .inS) (a' ++ b) = _
      have h₂ : scanF (if c = sqChar then .out else .inS) a' = some st := h
      rcases hend' with ha | ha
      · subst ha
        simp only [scanF, Option.some.injEq] at h₂
        subst h₂
        rfl
      · exact ih _ _ h₂ ha
    | inD =>
      rw [List.cons_append]
      show scanF (if c = dqChar then .out else .inD) (a' ++ b) = _
      have h₂ : scanF (if c = dqChar then .out else .inD) a' = some st := h
      rcases hend' with ha | ha
      · subst ha
        simp only [scanF, Option.some.injEq] at h₂
        subst h₂
        rfl
      · exact ih _ _ h₂ ha
    | out =>
      by_cases hc1 : c = sqChar
      · rw [List.cons_append]
        have h₂ : scanF .inS a' = some st := by
          simpa [scanF, hc1] using h
        show scanF QState.out (c :: (a' ++ b)) = scanF st b
        have : scanF QState.out (c :: (a' ++ b)) = scanF .inS (a' ++ b) := by
          simp [scanF, hc1]
        rw [this]
        rcases hend' with ha | ha
        · subst ha
          simp only [scanF, Option.some.injEq] at h₂
          subst h₂
          rfl
        · exact ih _ _ h₂ ha
      · by_cases hc2 : c = dqChar
        · rw [List.cons_append]
          have h₂ : scanF .inD a' = some st := by
            simpa [scanF, hc1, hc2] using h
          have : scanF QState.out (c :: (a' ++ b)) = scanF .inD (a' ++ b) := by
            simp [scanF, hc1, hc2, show ¬(dqChar = sqChar) by decide]
          rw [this]
          rcases hend' with ha | ha
          · subst ha
            simp only [scanF, Option.some.injEq] at h₂
            subst h₂
            rfl
          · exact ih _ _ h₂ ha
        · -- c is not a quote: the `out` branch looked ahead with `startsNOT`
          have hsn : startsNOT (c :: a') = false := by
            by_contra hx
            simp only [Bool.not_eq_false] at hx
            simp [scanF, hc1, hc2, hx] at h
          have h₂ : scanF .out a' = some st := by
            simpa [scanF, hc1, hc2, hsn] using h
          have hsn₂ : startsNOT (c :: (a' ++ b)) = false := by
            cases a' with
            | nil =>
              -- a = [c]; endOk gives c ≠ N (and ≠ O)
              have hcN : ¬(c = 'N' ∨ c = 'O') := by
                simpa [endOk] using hend
              cases b with
              | nil => rfl
              | cons x xs =>
                cases xs with
                | nil => rfl
                | cons y ys =>
                  show (decide (c = 'N') && decide (x = 'O') && decide (y = 'T')) = false
                  have : c ≠ 'N' := fun hh => hcN (Or.inl hh)
                  simp [this]
            | cons d a'' =>
              cases a'' with
              | nil =>
                -- a = [c, d]; endOk gives d ≠ N and d ≠ O
                have hdN : ¬(d = 'N' ∨ d = 'O') := by
                  simpa [endOk] using hend
                cases b with
                | nil => simpa using hsn
                | cons y ys =>
                  show (decide (c = 'N') && decide (d = 'O') && decide (y = 'T')) = false
                  have : d ≠ 'O' := fun hh => hdN (Or.inr hh)
                  simp [this]
              | cons e a''' =>
                simpa [startsNOT] using hsn
          rw [List.cons_append]
          have : scanF QState.out (c :: (a' ++ b)) = scanF .out (a' ++ b) := by
            simp [scanF, hc1, hc2, hsn₂]
          rw [this]
          rcases hend' with ha | ha
          · subst ha
            simp only [scanF, Option.some.injEq] at h₂
            subst h₂
            rfl
          · exact ih _ _ h₂ ha

theorem toLower_toNat_of_upper (c : Char) (h : c.isUpper = true) :
    (Char.toLower c).toNat = c.toNat + 32 := by
  simp only [Char.isUpper, Bool.and_eq_true, decide_eq_true_eq] at h
  have h1 : 65 ≤ c.toNat := h.1
  have h2 : c.toNat ≤ 90 := h.2
  have hv : (c.toNat + 32).isValidChar := by
    constructor
    omega
  rw [Char.toLower, if_pos ⟨h1, h2⟩, Char.ofNat, dif_pos hv]
  exact BitVec.toNat_ofNatLt _ _

theorem isUpper_toLower_false (c : Char) (h : c.isUpper = true) :
    (Char.toLower c).isUpper = false := by
  have ht := toLower_toNat_of_upper c h
  simp only [Char.isUpper, Bool.and_eq_true, decide_eq_true_eq] at h
  have h2 : c.toNat ≤ 90 := h.2
  have h1 : 65 ≤ c.toNat := h.1
  have hgt : ¬((Char.toLower c).val ≤ 90) := by
    intro hle
    have : (Char.toLower c).toNat ≤ 90 := hle
    omega
  simp [Char.isUpper, hgt]

/-- The snake_case conversion never outputs an ASCII uppercase character. -/
theorem camelToSnakeCase_no_upper (l : JStr) :
    ∀ c ∈ camelToSnakeCase l, c.isUpper = false := by
  induction l with
  | nil => intro c hc; simp [camelToSnakeCase] at hc
  | cons x rest ih =>
    intro c hc
    by_cases hx : x.isUpper
    · simp only [camelToSnakeCase, if_pos hx, List.mem_cons] at hc
      rcases hc with rfl | hc
      · decide
      · rcases hc with rfl | hc
        · exact isUpper_toLower_false x hx
        · exact ih c hc
    · simp only [camelToSnakeCase, if_neg hx, List.mem_cons] at hc
      rcases hc with rfl | hc
      · simpa using hx
      · exact ih c hc

/-- A character allowed in a bare identifier which is not uppercase is none of
the characters the token scanner is sensitive to. -/
theorem bare_char_plain (c : Char)
    (hc : (c.isUpper || c.isLower || c.isDigit || c = '_') = true)
    (hu : c.isUpper = false) :
    c ≠ sqChar ∧ c ≠ dqChar ∧ c ≠ 'N' ∧ c ≠ 'O' := by
  refine ⟨?_, ?_, ?_, ?_⟩
  · rintro rfl
    rw [hu] at hc
    revert hc
    decide
  · rintro rfl
    rw [hu] at hc
    revert hc
    decide
  · rintro rfl
    revert hu
    decide
  · rintro rfl
    revert hu
    decide

/-- Plain characters keep the scanner outside quotes with no detection. -/
theorem scanF_out_of_plain (l : JStr)
    (h : ∀ c ∈ l, c ≠ sqChar ∧ c ≠ dqChar ∧ c ≠ 'N') :
    scanF .out l = some .out := by
  induction l with
  | nil => rfl
  | cons c rest ih =>
    obtain ⟨h1, h2, h3⟩ := h c (by simp)
    have hsn : startsNOT (c :: rest) = false := by
      cases rest with
      | nil => rfl
      | cons d rest' =>
        cases rest' with
        | nil => rfl
        | cons e rest'' =>
          show (decide (c = 'N') && decide (d = 'O') && decide (e = 'T')) = false
          simp [h3]
    have := ih (fun c hc => h c (by simp [hc]))
    simpa [scanF, h1, h2, hsn] using this

theorem endOk_of_plain (l : JStr) (h : ∀ c ∈ l, c ≠ 'N' ∧ c ≠ 'O') :
    endOk l = true := by
  induction l with
  | nil => rfl
  | cons c rest ih =>
    cases rest with
    | nil =>
      obtain ⟨h1, h2⟩ := h c (by simp)
      simp [endOk, h1, h2]
    | cons d rest' =>
      rw [endOk_cons_cons]
      exact ih (fun c hc => h c (by simp [hc]))

/-- Safety of a compiled fragment: scanning it from outside quotes finds no
negation token and returns outside quotes, and it does not end with a
character that could begin a cross-boundary `NOT`. -/
def StrSafe (s : JStr) : Prop :=
  scanF .out s = some .out ∧ endOk s = true

theorem StrSafe.append {a b : JStr} (ha : StrSafe a) (hb : StrSafe b) :
    StrSafe (a ++ b) := by
  constructor
  · rw [scanF_append b a .out .out ha.1 ha.2]
    exact hb.1
  · cases hbe : b with
    | nil => simpa using ha.2
    | cons x xs =>
      rw [← hbe, endOk_append a b (by simp [hbe])]
      exact hb.2

theorem StrSafe_of_plain (l : JStr)
    (h : ∀ c ∈ l, c ≠ sqChar ∧ c ≠ dqChar ∧ c ≠ 'N' ∧ c ≠ 'O') :
    StrSafe l :=
  ⟨scanF_out_of_plain l (fun c hc => ⟨(h c hc).1, (h c hc).2.1, (h c hc).2.2.1⟩),
    endOk_of_plain l (fun c hc => ⟨(h c hc).2.2.1, (h c hc).2.2.2⟩)⟩

/-- Scanning a single-quote-escaped body from inside the literal consumes it
and the closing quote, ending outside quotes with no detection — for any body.
Doubled quotes leave and immediately re-enter the literal. -/
theorem scanF_inS_escaped (v : JStr) :
    scanF .inS (escapeSingleQuotes v ++ [sqChar]) = some .out := by
  induction v with
  | nil => simp [escapeSingleQuotes, scanF]
  | cons c rest ih =>
    by_cases hc : c = sqChar
    · simp only [escapeSingleQuotes, if_pos hc, List.cons_append]
      show scanF (if sqChar = sqChar then .out else .inS) _ = some .out
      rw [if_pos rfl]
      show scanF QState.out (sqChar :: (escapeSingleQuotes rest ++ [sqChar])) = some .out
      have : scanF QState.out (sqChar :: (escapeSingleQuotes rest ++ [sqChar])) =
          scanF .inS (escapeSingleQuotes rest ++ [sqChar]) := by
        simp [scanF]
      rw [this]
      exact ih
    · simp only [escapeSingleQuotes, if_neg hc, List.cons_append]
      show scanF (if c = sqChar then .out else .inS) _ = some .out
      rw [if_neg hc]
      exact ih

/-- Single-quoted literal fragments are safe, whatever the body contains. -/
theorem StrSafe_singleQuoted (v : JStr) :
    StrSafe (sqChar :: escapeSingleQuotes v ++ [sqChar]) := by
  constructor
  · show scanF QState.out (sqChar :: (escapeSingleQuotes v ++ [sqChar])) = some .out
    have : scanF QState.out (sqChar :: (escapeSingleQuotes v ++ [sqChar])) =
        scanF .inS (escapeSingleQuotes v ++ [sqChar]) := by
      simp [scanF]
    rw [this]
    exact scanF_inS_escaped v
  · show endOk (sqChar :: (escapeSingleQuotes v ++ [sqChar])) = true
    have h1 : endOk (escapeSingleQuotes v ++ [sqChar]) = true := by
      rw [endOk_append _ _ (by simp)]
      decide
    cases hv : escapeSingleQuotes v ++ [sqChar] with
    | nil => simp at hv
    | cons x xs =>
      rw [hv] at h1
      rw [endOk_cons_cons]
      exact h1

/-- Scanning a double-quote-escaped body from inside the quoted identifier
consumes it and the closing quote, ending outside quotes with no detection. -/
theorem scanF_inD_escaped (v : JStr) :
    scanF .inD (escapeDoubleQuotes v ++ [dqChar]) = some .out := by
  induction v with
  | nil => simp [escapeDoubleQuotes, scanF]
  | cons c rest ih =>
    by_cases hc : c = dqChar
    · simp only [escapeDoubleQuotes, if_pos hc, List.cons_append]
      show scanF (if dqChar = dqChar then .out else .inD) _ = some .out
      rw [if_pos rfl]
      show scanF QState.out (dqChar :: (escapeDoubleQuotes rest ++ [dqChar])) = some .out
      have : scanF QState.out (dqChar :: (escapeDoubleQuotes rest ++ [dqChar])) =
          scanF .inD (escapeDoubleQuotes rest ++ [dqChar]) := by
        simp [scanF, show ¬(dqChar = sqChar) by decide]
      rw [this]
      exact ih
    · simp only [escapeDoubleQuotes, if_neg hc, List.cons_append]
      show scanF (if c = dqChar then .out else .inD) _ = some .out
      rw [if_neg hc]
      exact ih

/-- Double-quoted identifier fragments are safe, whatever the body contains. -/
theorem StrSafe_doubleQuoted (v : JStr) :
    StrSafe (dqChar :: escapeDoubleQuotes v ++ [dqChar]) := by
  constructor
  · show scanF QState.out (dqChar :: (escapeDoubleQuotes v ++ [dqChar])) = some .out
    have : scanF QState.out (dqChar :: (escapeDoubleQuotes v ++ [dqChar])) =
        scanF .inD (escapeDoubleQuotes v ++ [dqChar]) := by
      simp [scanF, show ¬(dqChar = sqChar) by decide]
    rw [this]
    exact scanF_inD_escaped v
  · show endOk (dqChar :: (escapeDoubleQuotes v ++ [dqChar])) = true
    have h1 : endOk (escapeDoubleQuotes v ++ [dqChar]) = true := by
      rw [endOk_append _ _ (by simp)]
      decide
    cases hv : escapeDoubleQuotes v ++ [dqChar] with
    | nil => simp at hv
    | cons x xs =>
      rw [hv] at h1
      rw [endOk_cons_cons]
      exact h1

theorem digitChar_plain (k : Nat) :
    digitChar k ≠ sqChar ∧ digitChar k ≠ dqChar ∧ digitChar k ≠ 'N' ∧ digitChar k ≠ 'O' := by
  have hlt : k % 10 < 10 := Nat.mod_lt _ (by omega)
  have hv : (48 + k % 10).isValidChar := by
    constructor
    omega
  have htn : (digitChar k).toNat = 48 + k % 10 := by
    rw [digitChar, Char.ofNat, dif_pos hv]
    exact BitVec.toNat_ofNatLt _ _
  refine ⟨?_, ?_, ?_, ?_⟩
  · intro he
    rw [he, show sqChar.toNat = 39 from by decide] at htn
    omega
  · intro he
    rw [he, show dqChar.toNat = 34 from by decide] at htn
    omega
  · intro he
    rw [he, show Char.toNat 'N' = 78 from by decide] at htn
    omega
  · intro he
    rw [he, show Char.toNat 'O' = 79 from by decide] at htn
    omega

theorem natDigitsAux_plain (fuel n : Nat) :
    ∀ c ∈ natDigitsAux fuel n, c ≠ sqChar ∧ c ≠ dqChar ∧ c ≠ 'N' ∧ c ≠ 'O' := by
  induction fuel generalizing n with
  | zero => intro c hc; simp [natDigitsAux] at hc
  | succ fuel ih =>
    intro c hc
    by_cases hn : n < 10
    · simp only [natDigitsAux, if_pos hn, List.mem_singleton] at hc
      subst hc
      exact digitChar_plain n
    · simp only [natDigitsAux, if_neg hn, List.mem_append, List.mem_singleton] at hc
      rcases hc with hc | hc
      · exact ih (n / 10) c hc
      · subst hc
        exact digitChar_plain (n % 10)

theorem intToDecimal_plain (n : Int) :
    ∀ c ∈ intToDecimal n, c ≠ sqChar ∧ c ≠ dqChar ∧ c ≠ 'N' ∧ c ≠ 'O' := by
  intro c hc
  unfold intToDecimal at hc
  split at hc
  · rcases List.mem_cons.mp hc with rfl | hc
    · refine ⟨by decide, by decide, by decide, by decide⟩
    · exact natDigitsAux_plain _ _ c hc
  · exact natDigitsAux_plain _ _ c hc

theorem StrSafe_formatValue (v : Val) : StrSafe (formatValue v) := by
  cases v with
  | str s => exact StrSafe_singleQuoted s
  | ident i => exact StrSafe_singleQuoted _
  | num n => exact StrSafe_of_plain _ (intToDecimal_plain n)
  | bool b =>
    cases b
    · exact ⟨by decide, by decide⟩
    · exact ⟨by decide, by decide⟩

theorem StrSafe_escapeIdent (id : JStr) : StrSafe (escapeIdent id) := by
  rw [show escapeIdent id =
      (if isBareIdent (camelToSnakeCase id) then camelToSnakeCase id
       else dqChar :: escapeDoubleQuotes (camelToSnakeCase id) ++ [dqChar]) from rfl]
  split
  · rename_i hbare
    apply StrSafe_of_plain
    intro c hc
    have hnu : c.isUpper = false := camelToSnakeCase_no_upper id c hc
    have hck : (c.isUpper || c.isLower || c.isDigit || c = '_') = true := by
      cases hm : camelToSnakeCase id with
      | nil => rw [hm] at hc; simp at hc
      | cons x xs =>
        rw [hm] at hc hbare
        simp only [isBareIdent, Bool.and_eq_true, List.all_eq_true] at hbare
        rcases List.mem_cons.mp hc with rfl | hc₂
        · rcases hbare.1 with h
          rcases Bool.or_eq_true _ _ |>.mp h with h | h
          · rcases Bool.or_eq_true _ _ |>.mp h with h | h
            · simp [h]
            · simp [h]
          · simp [h]
        · have := hbare.2 c hc₂
          rcases Bool.or_eq_true _ _ |>.mp this with h | h
          · rcases Bool.or_eq_true _ _ |>.mp h with h | h
            · rcases Bool.or_eq_true _ _ |>.mp h with h | h
              · simp [h]
              · simp [h]
            · simp [h]
          · simp [h]
    exact bare_char_plain c hck hnu
  · exact StrSafe_doubleQuoted _

theorem StrSafe_nil : StrSafe [] := ⟨rfl, rfl⟩

theorem StrSafe_joinSep (sep : JStr) (hsep : StrSafe sep) :
    ∀ (parts : List JStr), (∀ s ∈ parts, StrSafe s) → StrSafe (joinSep sep parts) := by
  intro parts
  induction parts with
  | nil => intro _; exact StrSafe_nil
  | cons s rest ih =>
    intro h
    cases rest with
    | nil => exact h s (by simp)
    | cons t rest₂ =>
      show StrSafe (s ++ sep ++ joinSep sep (t :: rest₂))
      exact ((h s (by simp)).append hsep).append
        (ih (fun u hu => h u (by simp [hu])))

theorem StrSafe_parenthesize (s : JStr) (hs : StrSafe s) : StrSafe (parenthesize s) := by
  unfold parenthesize
  split
  · exact hs
  · show StrSafe (('(' :: s) ++ [')'])
    have h1 : StrSafe ['('] := ⟨by decide, by decide⟩
    have h2 : StrSafe [')'] := ⟨by decide, by decide⟩
    exact (h1.append hs).append h2

mutual

/-- Every compiled fragment, at either polarity, is safe: in particular it
contains no literal negation operator token. -/
theorem StrSafe_toQueryStringAux (b : Bool) (e : CExpr) :
    StrSafe (toQueryStringAux b e) := by
  cases b with
  | false =>
    cases e with
    | eq k v =>
      exact ((StrSafe_escapeIdent k).append ⟨by decide, by decide⟩).append
        (StrSafe_formatValue v)
    | not c => exact StrSafe_toQueryStringAux true c
    | and cs =>
      exact StrSafe_parenthesize _
        (StrSafe_joinSep _ ⟨by decide, by decide⟩ _ (StrSafe_toQueryStringAuxList false cs))
    | or cs =>
      exact StrSafe_parenthesize _
        (StrSafe_joinSep _ ⟨by decide, by decide⟩ _ (StrSafe_toQueryStringAuxList false cs))
  | true =>
    cases e with
    | eq k v =>
      exact ((StrSafe_escapeIdent k).append ⟨by decide, by decide⟩).append
        (StrSafe_formatValue v)
    | not c => exact StrSafe_toQueryStringAux false c
    | and cs =>
      exact StrSafe_parenthesize _
        (StrSafe_joinSep _ ⟨by decide, by decide⟩ _ (StrSafe_toQueryStringAuxList true cs))
    | or cs =>
      exact StrSafe_parenthesize _
        (StrSafe_joinSep _ ⟨by decide, by decide⟩ _ (StrSafe_toQueryStringAuxList true cs))

theorem StrSafe_toQueryStringAuxList (b : Bool) (cs : List CExpr) :
    ∀ s ∈ toQueryStringAuxList b cs, StrSafe s := by
  cases cs with
  | nil => intro s hs; simp [toQueryStringAuxList] at hs
  | cons c rest =>
    intro s hs
    rcases List.mem_cons.mp hs with rfl | hs₂
    · exact StrSafe_toQueryStringAux b c
    · exact StrSafe_toQueryStringAuxList b rest s hs₂

end

/-- Resolving `not(e)` resolves `e` and wraps the result (both for the plain
`not` node and for the pending-wrapping case of the constructor). -/
theorem resolve_notCtor (e : Expr) (ctx : PendingResolutionContext) :
    resolvePendingExpression (notCtor e) ctx =
      match resolvePendingExpression e ctx with
      | none => none
      | some ce => some (.not ce) := by
  cases e with
  | pending k r =>
    show (match r ctx with
      | none => none
      | some resolved => some (CExpr.not resolved)) = _
    rfl
  | eq k v => rfl
  | not c => rfl
  | and cs => rfl
  | or cs => rfl

/-- C4: for every expression `e` that resolves under the context, compiling
`Not(e)` succeeds and the compiled string contains no literal negation
operator token (the characters `NOT` never occur at operator position,
outside quoted string literals and quoted identifiers — negation is
eliminated by the leaf rewriting of the `not` branch), and for every row,
evaluating `Not(e)` is the boolean negation of evaluating `e`. -/
theorem not_compiles_without_negation_token (e : Expr) (ci : Option Identity)
    (ce : CExpr) (h : resolvePendingExpression e ⟨ci⟩ = some ce) :
    (∃ s, toQueryString (notCtor e) ci = some s ∧ hasNOTtok s = false) ∧
      ∀ row : Row, evaluate (notCtor e) row ci = !evaluate e row ci := by
  have hres : resolvePendingExpression (notCtor e) ⟨ci⟩ = some (.not ce) := by
    rw [resolve_notCtor, h]
  constructor
  · refine ⟨toQueryStringAux true ce, ?_, ?_⟩
    · simp [toQueryString, hres, toQueryStringC, toQueryStringAux]
    · have := (StrSafe_toQueryStringAux true ce).1
      simp [hasNOTtok, this]
  · intro row
    simp [evaluate, hres, h, evalC]

/-- Witness for C4 at a concrete resolvable filter. -/
theorem not_compiles_without_negation_token_witness :
    resolvePendingExpression
        (andCtor [eqCtor "groupchatId".data (some (.num 7)),
          eqCtor "name".data (some (.str "NOT A GROUP".data))]) ⟨none⟩ =
      some (.and [.eq "groupchatId".data (.num 7),
        .eq "name".data (.str "NOT A GROUP".data)]) ∧
      ((∃ s, toQueryString
          (notCtor (andCtor [eqCtor "groupchatId".data (some (.num 7)),
            eqCtor "name".data (some (.str "NOT A GROUP".data))])) none = some s ∧
          hasNOTtok s = false) ∧
        ∀ row : Row, evaluate
            (notCtor (andCtor [eqCtor "groupchatId".data (some (.num 7)),
              eqCtor "name".data (some (.str "NOT A GROUP".data))])) row none =
          !evaluate (andCtor [eqCtor "groupchatId".data (some (.num 7)),
            eqCtor "name".data (some (.str "NOT A GROUP".data))]) row none) :=
  ⟨by rfl,
    not_compiles_without_negation_token _ none
      (.and [.eq "groupchatId".data (.num 7),
        .eq "name".data (.str "NOT A GROUP".data)]) (by rfl)⟩

/-- Removal of the first row satisfying a predicate (what the
`findRowIndex`-then-`removeAtIndex` sequence computes). -/
def eraseFirst (pred : Row → Bool) : List Row → List Row
  | [] => []
  | r :: rest => if pred r then rest else r :: eraseFirst pred rest

theorem remove_found_eq_eraseFirst (pred : Row → Bool) (l : List Row) :
    (match findIdxA pred l with
     | some i => removeAtIndex l i
     | none => l) = eraseFirst pred l := by
  induction l with
  | nil => rfl
  | cons r rest ih =>
    by_cases hp : pred r
    · simp [findIdxA, hp, removeAtIndex, eraseFirst]
    · simp only [findIdxA, hp, if_neg, Bool.false_eq_true, eraseFirst]
      cases hf : findIdxA pred rest with
      | none =>
        rw [hf] at ih
        simpa [hf] using congrArg (r :: ·) ih
      | some i =>
        rw [hf] at ih
        simpa [hf, removeAtIndex, List.take_succ_cons, List.drop_succ_cons]
          using congrArg (r :: ·) ih

/-- With a declared primary key present on an untagged event row, the row
lookup is exactly the first-index search on that key. -/
theorem findRowIndex_pk_untagged (cache : List Row) (lastQ : Option JStr)
    (row : Row) (pk : JStr) (tv : Val)
    (h1 : row pk = some tv) (h2 : row tagKey = none) :
    findRowIndex cache lastQ row (some pk) =
      findIdxA (fun c =>
        match c pk with
        | some cv => pkMatch cv tv
        | none => false) cache := by
  simp only [findRowIndex]
  rw [h1]
  cases hf : findIdxA (fun c =>
      match c pk with
      | some cv => pkMatch cv tv
      | none => false) cache with
  | some i => simp [hf]
  | none => simp [hf, h2]

/-- C6 counterexample: a delete notification whose row passes the (absent)
filter fires the delete callbacks even though no cache entry is found — the
callbacks run before the lookup — contradicting the claim that the callback is
invoked only if a cache entry is found. -/
theorem delete_callback_fires_without_found_entry :
    onDeleteRow none none "q".data none [] (fun _ => none) = ([], true) ∧
      findRowIndex [] (some "q".data) (fun _ => none) none = none := by
  exact ⟨rfl, rfl⟩

/-- C6 amended: a delete whose row the filter rejects is ignored entirely
(cache unchanged, no callback); otherwise the delete callback is always
invoked (before the lookup), and the row — located by primary key when
declared, with identity-aware key comparison, or by tag for keyless tables —
is removed only when such a cache entry is found: the first key-matching
entry is removed, and the cache is unchanged when none is found. -/
theorem onDeleteRow_characterization (w : Option Expr) (ci : Option Identity)
    (q : JStr) (pkField : Option JStr) (cache : List Row) (row : Row) :
    (rowMatches w ci row = false → onDeleteRow w ci q pkField cache row = (cache, false)) ∧
      (rowMatches w ci row = true →
        (onDeleteRow w ci q pkField cache row).2 = true ∧
          (onDeleteRow w ci q pkField cache row).1 =
            match findRowIndex cache (some q) row pkField with
            | some i => removeAtIndex cache i
            | none => cache) ∧
      (∀ pk tv, rowMatches w ci row = true → row pk = some tv → row tagKey = none →
        (onDeleteRow w ci q (some pk) cache row).1 =
          eraseFirst (fun c =>
            match c pk with
            | some cv => pkMatch cv tv
            | none => false) cache) := by
  refine ⟨?_, ?_, ?_⟩
  · intro h
    simp [onDeleteRow, h]
  · intro h
    constructor
    · simp only [onDeleteRow, h]
      cases findRowIndex cache (some q) row pkField <;> simp
    · simp only [onDeleteRow, h]
      cases findRowIndex cache (some q) row pkField <;> simp
  · intro pk tv h h1 h2
    simp only [onDeleteRow, h]
    rw [findRowIndex_pk_untagged cache (some q) row pk tv h1 h2]
    simpa using remove_found_eq_eraseFirst _ cache

/-- Witness for the amended C6 at a concrete cache and row: the tagged cache
copy of the row is located by primary key and removed. -/
theorem onDeleteRow_characterization_witness :
    rowMatches none none (fun k => if k = "id".data then some (.num 1) else none) = true ∧
      (onDeleteRow none none "q".data (some "id".data)
          [tagRow "q".data (fun k => if k = "id".data then some (.num 1) else none)]
          (fun k => if k = "id".data then some (.num 1) else none)).1 =
        eraseFirst (fun c =>
          match c "id".data with
          | some cv => pkMatch cv (.num 1)
          | none => false)
          [tagRow "q".data (fun k => if k = "id".data then some (.num 1) else none)] :=
  ⟨by rfl,
    (onDeleteRow_characterization none none "q".data (some "id".data)
        [tagRow "q".data (fun k => if k = "id".data then some (.num 1) else none)]
        (fun k => if k = "id".data then some (.num 1) else none)).2.2
      "id".data (.num 1) (by rfl) (by rfl) (by rfl)⟩

/-- C10: for a table without a declared primary key, `findRowIndex` reports
any event row whose query tag equals the subscribed query as found at index
`0` regardless of the cache's contents; a delete for such a row (and a
leave-classified update for such an old row) therefore removes the first
cache element, which need not be the entry corresponding to the event's
row. -/
theorem keyless_tag_fallback_removes_first (cache : List Row) (q : JStr)
    (row oldRow newRow : Row) (w : Option Expr) (ci : Option Identity)
    (ht : row tagKey = some (.str q)) (hq : q ≠ [])
    (hto : oldRow tagKey = some (.str q))
    (hcl : classifyMembership w oldRow newRow ci = .leave) :
    findRowIndex cache (some q) row none = some 0 ∧
      (onDeleteRow none ci q none cache row).1 = cache.drop 1 ∧
      onUpdateRow w ci q none cache oldRow newRow = cache.drop 1 := by
  have hfind : ∀ r : Row, r tagKey = some (.str q) →
      findRowIndex cache (some q) r none = some 0 := by
    intro r hr
    simp [findRowIndex, hr, hq]
  refine ⟨hfind row ht, ?_, ?_⟩
  · simp only [onDeleteRow, rowMatches, Bool.not_true, Bool.false_eq_true, if_false,
      hfind row ht]
    simp [removeAtIndex]
  · simp only [onUpdateRow, hcl, hfind oldRow hto]
    simp [removeAtIndex]

/-- Witness for C10: the cache's sole entry is a different row than the
deleted one, yet it is the element removed. -/
theorem keyless_tag_fallback_removes_first_witness :
    ((tagRow "q".data (fun _ => none) : Row) tagKey = some (.str "q".data)) ∧
      classifyMembership (some (.eq "gid".data (.num 7)))
        (fun k => if k = tagKey then some (.str "q".data)
          else if k = "gid".data then some (.num 7) else none)
        (fun k => if k = "gid".data then some (.num 8) else none) none = .leave ∧
      (findRowIndex [fun k => if k = "id".data then some (.num 99) else none]
          (some "q".data) (tagRow "q".data (fun _ => none)) none = some 0 ∧
        (onDeleteRow none none "q".data none
            [fun k => if k = "id".data then some (.num 99) else none]
            (tagRow "q".data (fun _ => none))).1 =
          [fun k => if k = "id".data then some (.num 99) else none].drop 1 ∧
        onUpdateRow (some (.eq "gid".data (.num 7))) none "q".data none
            [fun k => if k = "id".data then some (.num 99) else none]
            (fun k => if k = tagKey then some (.str "q".data)
              else if k = "gid".data then some (.num 7) else none)
            (fun k => if k = "gid".data then some (.num 8) else none) =
          [fun k => if k = "id".data then some (.num 99) else none].drop 1) :=
  ⟨by rfl, by rfl,
    keyless_tag_fallback_removes_first
      [fun k => if k = "id".data then some (.num 99) else none] "q".data
      (tagRow "q".data (fun _ => none))
      (fun k => if k = tagKey then some (.str "q".data)
        else if k = "gid".data then some (.num 7) else none)
      (fun k => if k = "gid".data then some (.num 8) else none)
      (some (.eq "gid".data (.num 7))) none
      (by rfl) (by decide) (by rfl) (by rfl)⟩

theorem untagRow_tagRow (q : JStr) (r : Row) (h : r tagKey = none) :
    untagRow (tagRow q r) = r := by
  funext k
  by_cases hk : k = tagKey
  · subst hk
    simp [untagRow, tagRow, h]
  · simp [untagRow, tagRow, hk]

theorem untagRow_eq_self (r : Row) (h : r tagKey = none) : untagRow r = r := by
  funext k
  by_cases hk : k = tagKey
  · subst hk
    simp [untagRow, h]
  · simp [untagRow, hk]

theorem untagRow_pk (r : Row) (pkF : JStr) (hpk : pkF ≠ tagKey) :
    untagRow r pkF = r pkF := by
  simp [untagRow, hpk]

theorem tagRow_pk (q : JStr) (r : Row) (pkF : JStr) (hpk : pkF ≠ tagKey) :
    tagRow q r pkF = r pkF := by
  simp [tagRow, hpk]

/-- Primary-key value comparison is value equality. -/
theorem pkMatch_iff (v w : Val) : pkMatch v w = true ↔ v = w := by
  cases v <;> cases w <;>
    simp [pkMatch, Identity.isEqual, Val.str.injEq, Val.num.injEq,
      Val.bool.injEq, Val.ident.injEq]
  constructor
  · intro h
    cases ‹Identity›
    cases ‹Identity›
    simp_all
  · intro h
    simp [h]

/-- The cache lookup predicate on the primary key is key-value equality. -/
theorem pkPred_iff (pkF : JStr) (tv : Val) (c : Row) :
    (match c pkF with
     | some cv => pkMatch cv tv
     | none => false) = true ↔ c pkF = some tv := by
  cases hc : c pkF with
  | none => simp
  | some cv => simp [pkMatch_iff]

theorem findIdxA_none_iff (pred : Row → Bool) (l : List Row) :
    findIdxA pred l = none ↔ ∀ c ∈ l, pred c = false := by
  induction l with
  | nil => simp [findIdxA]
  | cons r rest ih =>
    by_cases hp : pred r
    · simp [findIdxA, hp]
    · simp only [findIdxA, hp, Bool.false_eq_true, if_false, List.mem_cons]
      constructor
      · intro h c hc
        cases hf : findIdxA pred rest with
        | none =>
          rcases hc with rfl | hc
          · simpa using hp
          · exact ih.mp hf c hc
        | some i => rw [hf] at h; simp at h
      · intro h
        have : findIdxA pred rest = none := ih.mpr (fun c hc => h c (Or.inr hc))
        simp [this]

theorem findIdxA_some_mem (pred : Row → Bool) (l : List Row) (i : Nat)
    (h : findIdxA pred l = some i) : ∃ c ∈ l, pred c = true := by
  induction l generalizing i with
  | nil => simp [findIdxA] at h
  | cons r rest ih =>
    by_cases hp : pred r
    · exact ⟨r, by simp, hp⟩
    · simp only [findIdxA, hp, Bool.false_eq_true, if_false] at h
      cases hf : findIdxA pred rest with
      | none => rw [hf] at h; simp at h
      | some j =>
        obtain ⟨c, hc, hcp⟩ := ih j hf
        exact ⟨c, by simp [hc], hcp⟩

/-- At most one list element satisfies the predicate: removing the first match
is removing every match. -/
theorem eraseFirst_eq_filter (pred : Row → Bool) (l : List Row)
    (h : l.countP pred ≤ 1) :
    eraseFirst pred l = l.filter (fun c => !pred c) := by
  induction l with
  | nil => rfl
  | cons r rest ih =>
    by_cases hp : pred r
    · have hz : rest.countP pred = 0 := by
        rw [List.countP_cons_of_pos pred rest hp] at h
        omega
      have : rest.filter (fun c => !pred c) = rest :=
        List.filter_eq_self.mpr (fun a ha => by
          simp [List.countP_eq_zero.mp hz a ha])
      simp [eraseFirst, hp, this]
    · have hr : rest.countP pred ≤ 1 := by
        rw [List.countP_cons_of_neg pred rest (by simpa using hp)] at h
        omega
      simp [eraseFirst, hp, ih hr]

/-- At most one list element satisfies the predicate: updating the first match
in place is a pointwise map. -/
theorem assign_found_eq_map (pred : Row → Bool) (f : Row → Row) (l : List Row)
    (h : l.countP pred ≤ 1) :
    (match findIdxA pred l with
     | some i =>
       match l.get? i with
       | some c => l.set i (f c)
       | none => l
     | none => l) =
      l.map (fun c => if pred c then f c else c) := by
  induction l with
  | nil => rfl
  | cons r rest ih =>
    by_cases hp : pred r
    · have hz : rest.countP pred = 0 := by
        rw [List.countP_cons_of_pos pred rest hp] at h
        omega
      have hmap : rest.map (fun c => if pred c then f c else c) = rest := by
        rw [show rest.map (fun c => if pred c then f c else c) = rest.map id from
          List.map_congr_left (fun a ha => by
            simp [List.countP_eq_zero.mp hz a ha])]
        simp
      simp [findIdxA, hp, hmap]
    · have hr : rest.countP pred ≤ 1 := by
        rw [List.countP_cons_of_neg pred rest (by simpa using hp)] at h
        omega
      simp only [findIdxA, hp, Bool.false_eq_true, if_false, List.map_cons]
      cases hf : findIdxA pred rest with
      | none =>
        rw [hf] at ih
        have h2 := ih hr
        simp only [Option.map_none', if_neg hp]
        exact congrArg (r :: ·) h2
      | some i =>
        rw [hf] at ih
        have h2 : (match rest.get? i with
            | some c => rest.set i (f c)
            | none => rest) =
            List.map (fun c => if pred c = true then f c else c) rest := ih hr
        simp only [Option.map_some', List.get?_cons_succ, List.set_cons_succ, if_neg hp]
        cases hg : rest.get? i with
        | none =>
          rw [hg] at h2
          exact congrArg (r :: ·) h2
        | some c =>
          rw [hg] at h2
          exact congrArg (r :: ·) h2

theorem countP_pk_le_one (pkF : JStr) (l : List Row) (tv : Val)
    (hnd : (l.map (fun r => r pkF)).Nodup) :
    l.countP (fun r => r pkF == some tv) ≤ 1 := by
  induction l with
  | nil => simp
  | cons r rest ih =>
    rw [List.map_cons, List.nodup_cons] at hnd
    by_cases hp : (r pkF == some tv) = true
    · have hz : rest.countP (fun c => c pkF == some tv) = 0 := by
        rw [List.countP_eq_zero]
        intro c hc hcp
        rw [beq_iff_eq] at hcp
        apply hnd.1
        rw [beq_iff_eq] at hp
        rw [hp, ← hcp]
        exact List.mem_map_of_mem _ hc
      simp [List.countP_cons, hz, hp]
    · simp only [List.countP_cons, hp, Bool.false_eq_true, if_false, Nat.add_zero]
      exact ih hnd.2

theorem filter_pk_single (pkF : JStr) (mirror : List Row) (m : Row)
    (hm : m ∈ mirror) (hnd : (mirror.map (fun r => r pkF)).Nodup)
    (huniq : ∀ x ∈ mirror, x pkF = m pkF → x = m) :
    mirror.filter (fun x => x pkF == m pkF) = [m] := by
  induction mirror with
  | nil => simp at hm
  | cons r rest ih =>
    rw [List.map_cons, List.nodup_cons] at hnd
    by_cases hp : (r pkF == m pkF) = true
    · have hr : r = m := huniq r (by simp) (beq_iff_eq.mp hp)
      subst hr
      have hrest : rest.filter (fun x => x pkF == r pkF) = [] := by
        rw [List.filter_eq_nil_iff]
        intro c hc hcp
        rw [beq_iff_eq] at hcp
        exact hnd.1 (hcp ▸ List.mem_map_of_mem _ hc)
      simp [List.filter_cons, hp, hrest]
    · have hmr : m ∈ rest := by
        rcases List.mem_cons.mp hm with rfl | h
        · simp at hp
        · exact h
      rw [show List.filter (fun x => x pkF == m pkF) (r :: rest) =
          List.filter (fun x => x pkF == m pkF) rest by simp [List.filter_cons, hp]]
      exact ih hmr hnd.2 (fun x hx hxe => huniq x (by simp [hx]) hxe)

/-- A mirror with unique keys splits, up to permutation, into the row of a
given key and the rows of other keys. -/
theorem mirror_split (pkF : JStr) (mirror : List Row) (m : Row)
    (hm : m ∈ mirror) (hnd : (mirror.map (fun r => r pkF)).Nodup)
    (huniq : ∀ x ∈ mirror, x pkF = m pkF → x = m) :
    mirror.Perm (m :: mirror.filter (fun x => !(x pkF == m pkF))) := by
  have h := List.filter_append_perm (fun x => x pkF == m pkF) mirror
  rw [filter_pk_single pkF mirror m hm hnd huniq] at h
  exact h.symm

theorem step_insert (w : Option Expr) (ci : Option Identity) (q : JStr) (pkF : JStr)
    (hpk : pkF ≠ tagKey) (mirror cache : List Row)
    (hmw : MirrorWF pkF mirror)
    (hinv : (cache.map untagRow).Perm (mirror.filter (rowMatches w ci)))
    (r : Row) (hew : EventWF pkF mirror (.insert r)) :
    MirrorWF pkF (stepMirror pkF mirror (.insert r)) ∧
      ((onInsertRow w ci q (some pkF) cache r).1.map untagRow).Perm
        ((stepMirror pkF mirror (.insert r)).filter (rowMatches w ci)) := by
  obtain ⟨hrtag, hrpk, hred⟩ := hew
  obtain ⟨tv, htv⟩ := Option.isSome_iff_exists.mp hrpk
  by_cases hany : mirror.any (fun m => m pkF == r pkF) = true
  · have hmem : r ∈ mirror := by
      apply hred
      obtain ⟨m, hm, hmp⟩ := List.any_eq_true.mp hany
      exact ⟨m, hm, beq_iff_eq.mp hmp⟩
    have hms : stepMirror pkF mirror (.insert r) = mirror := by
      simp [stepMirror, hany]
    rw [hms]
    refine ⟨hmw, ?_⟩
    by_cases hp : rowMatches w ci r = true
    · have hrf : r ∈ mirror.filter (rowMatches w ci) := List.mem_filter.mpr ⟨hmem, hp⟩
      have hrm : r ∈ cache.map untagRow := hinv.mem_iff.mpr hrf
      obtain ⟨c, hc, hcu⟩ := List.mem_map.mp hrm
      have hcpk : c pkF = some tv := by
        rw [← untagRow_pk c pkF hpk, hcu, htv]
      cases hfi : findIdxA (fun c =>
          match c pkF with
          | some cv => pkMatch cv tv
          | none => false) cache with
      | none =>
        have := (findIdxA_none_iff _ cache).mp hfi c hc
        rw [hcpk] at this
        have h3 : pkMatch tv tv = false := this
        rw [(pkMatch_iff tv tv).mpr rfl] at h3
        simp at h3
      | some i =>
        simp [onInsertRow, hp, findRowIndex_pk_untagged cache (some q) r pkF tv htv hrtag,
          hfi]
        exact hinv
    · simp [onInsertRow, hp]
      exact hinv
  · have hnotin : ∀ m ∈ mirror, ¬(m pkF = r pkF) := by
      intro m hm he
      exact hany (List.any_eq_true.mpr ⟨m, hm, beq_iff_eq.mpr he⟩)
    have hms : stepMirror pkF mirror (.insert r) = mirror ++ [r] := by
      simp only [stepMirror, if_neg hany]
    rw [hms]
    constructor
    · constructor
      · intro x hx
        rcases List.mem_append.mp hx with hx | hx
        · exact hmw.1 x hx
        · rw [List.mem_singleton] at hx
          subst hx
          exact ⟨hrtag, hrpk⟩
      · rw [List.map_append]
        apply (List.perm_append_singleton (r pkF) (mirror.map (fun x => x pkF))).symm.nodup
        rw [List.nodup_cons]
        refine ⟨?_, hmw.2⟩
        intro hin
        obtain ⟨m, hm, hmp⟩ := List.mem_map.mp hin
        exact hnotin m hm hmp
    · by_cases hp : rowMatches w ci r = true
      · have hfind : findIdxA (fun c =>
            match c pkF with
            | some cv => pkMatch cv tv
            | none => false) cache = none := by
          rw [findIdxA_none_iff]
          intro c hc
          by_contra hcp
          rw [Bool.not_eq_false] at hcp
          have hcpk : c pkF = some tv := (pkPred_iff pkF tv c).mp hcp
          have h1 : untagRow c ∈ mirror.filter (rowMatches w ci) :=
            hinv.mem_iff.mp (List.mem_map_of_mem _ hc)
          have h2 := List.mem_filter.mp h1
          exact hnotin _ h2.1 (by rw [untagRow_pk c pkF hpk, hcpk, htv])
        simp only [onInsertRow, hp, Bool.not_true, Bool.false_eq_true, if_false,
          findRowIndex_pk_untagged cache (some q) r pkF tv htv hrtag, hfind]
        rw [List.map_append, List.filter_append]
        have hu : [tagRow q r].map untagRow = [r] := by
          simp [untagRow_tagRow q r hrtag]
        have hf : [r].filter (rowMatches w ci) = [r] := by
          simp [List.filter_cons, hp]
        rw [hu, hf]
        exact hinv.append_right [r]
      · simp only [onInsertRow, hp, Bool.not_false, if_true]
        rw [List.filter_append]
        have hf : [r].filter (rowMatches w ci) = [] := by
          simp [List.filter_cons, hp]
        rw [hf, List.append_nil]
        exact hinv

theorem pkPredFun_eq (pkF : JStr) (tv : Val) :
    (fun c : Row => match c pkF with
      | some cv => pkMatch cv tv
      | none => false) = fun c : Row => c pkF == some tv := by
  funext c
  rw [Bool.eq_iff_iff, pkPred_iff]
  simp

theorem cache_countP_le_one (w : Option Expr) (ci : Option Identity) (pkF : JStr)
    (hpk : pkF ≠ tagKey) (mirror cache : List Row)
    (hnd : (mirror.map (fun r => r pkF)).Nodup)
    (hinv : (cache.map untagRow).Perm (mirror.filter (rowMatches w ci))) (tv : Val) :
    cache.countP (fun c => c pkF == some tv) ≤ 1 := by
  have h1 : (cache.map untagRow).countP (fun c => c pkF == some tv) =
      cache.countP (fun c => c pkF == some tv) := by
    rw [List.countP_map]
    apply List.countP_congr
    intro c _
    show ((untagRow c) pkF == some tv) = true ↔ (c pkF == some tv) = true
    rw [untagRow_pk c pkF hpk]
  calc cache.countP (fun c => c pkF == some tv)
      = (mirror.filter (rowMatches w ci)).countP (fun c => c pkF == some tv) := by
        rw [← h1]; exact List.Perm.countP_eq _ hinv
    _ ≤ mirror.countP (fun c => c pkF == some tv) :=
        (List.filter_sublist mirror).countP_le _
    _ ≤ 1 := countP_pk_le_one pkF mirror tv hnd

theorem step_delete (w : Option Expr) (ci : Option Identity) (q : JStr) (pkF : JStr)
    (hpk : pkF ≠ tagKey) (mirror cache : List Row)
    (hmw : MirrorWF pkF mirror)
    (hinv : (cache.map untagRow).Perm (mirror.filter (rowMatches w ci)))
    (r : Row) (hew : EventWF pkF mirror (.delete r)) :
    MirrorWF pkF (stepMirror pkF mirror (.delete r)) ∧
      ((onDeleteRow w ci q (some pkF) cache r).1.map untagRow).Perm
        ((stepMirror pkF mirror (.delete r)).filter (rowMatches w ci)) := by
  obtain ⟨hrtag, hrpk, huniq⟩ := hew
  obtain ⟨tv, htv⟩ := Option.isSome_iff_exists.mp hrpk
  have hmwf : MirrorWF pkF (stepMirror pkF mirror (.delete r)) := by
    constructor
    · intro x hx
      exact hmw.1 x (List.mem_of_mem_filter hx)
    · exact ((List.filter_sublist mirror).map (fun r => r pkF)).nodup hmw.2
  refine ⟨hmwf, ?_⟩
  by_cases hp : rowMatches w ci r = true
  · have hcnt : cache.countP (fun c => c pkF == some tv) ≤ 1 :=
      cache_countP_le_one w ci pkF hpk mirror cache hmw.2 hinv tv
    cases hfi : findIdxA (fun c =>
        match c pkF with
        | some cv => pkMatch cv tv
        | none => false) cache with
    | some i =>
      have hdel : (onDeleteRow w ci q (some pkF) cache r).1 = removeAtIndex cache i := by
        simp [onDeleteRow, hp, findRowIndex_pk_untagged cache (some q) r pkF tv htv hrtag,
          hfi]
      have herase : removeAtIndex cache i =
          cache.filter (fun c => !(c pkF == some tv)) := by
        have h1 := remove_found_eq_eraseFirst (fun c =>
          match c pkF with
          | some cv => pkMatch cv tv
          | none => false) cache
        rw [hfi] at h1
        have h2 : removeAtIndex cache i = eraseFirst (fun c =>
          match c pkF with
          | some cv => pkMatch cv tv
          | none => false) cache := h1
        rw [h2, pkPredFun_eq pkF tv]
        exact eraseFirst_eq_filter _ cache hcnt
      rw [hdel, herase]
      have hmapfil : (cache.filter (fun c => !(c pkF == some tv))).map untagRow =
          (cache.map untagRow).filter (fun x => !(x pkF == some tv)) := by
        rw [List.filter_map]
        congr 1
        apply List.filter_congr
        intro c _
        show (!(c pkF == some tv)) = (!((untagRow c) pkF == some tv))
        rw [untagRow_pk c pkF hpk]
      rw [hmapfil]
      have hstep : (stepMirror pkF mirror (.delete r)).filter (rowMatches w ci) =
          (mirror.filter (rowMatches w ci)).filter (fun x => !(x pkF == some tv)) := by
        show (mirror.filter (fun m => !(m pkF == r pkF))).filter (rowMatches w ci) = _
        rw [List.filter_filter, List.filter_filter]
        apply List.filter_congr
        intro m _
        rw [htv, Bool.and_comm]
      rw [hstep]
      exact hinv.filter _
    | none =>
      have hnone : ∀ m ∈ mirror, ¬(m pkF = r pkF) := by
        intro m hm he
        have hmr : m = r := huniq m hm he
        subst hmr
        have hrf : m ∈ mirror.filter (rowMatches w ci) := List.mem_filter.mpr ⟨hm, hp⟩
        have hrm : m ∈ cache.map untagRow := hinv.mem_iff.mpr hrf
        obtain ⟨c, hc, hcu⟩ := List.mem_map.mp hrm
        have := (findIdxA_none_iff _ cache).mp hfi c hc
        have hcpk : c pkF = some tv := by
          rw [← untagRow_pk c pkF hpk, hcu, htv]
        rw [hcpk] at this
        have h3 : pkMatch tv tv = false := this
        rw [(pkMatch_iff tv tv).mpr rfl] at h3
        simp at h3
      have hms : stepMirror pkF mirror (.delete r) = mirror := by
        show mirror.filter (fun m => !(m pkF == r pkF)) = mirror
        rw [List.filter_eq_self]
        intro m hm
        simp [hnone m hm]
      have hdel : (onDeleteRow w ci q (some pkF) cache r).1 = cache := by
        simp [onDeleteRow, hp, findRowIndex_pk_untagged cache (some q) r pkF tv htv hrtag,
          hfi]
      rw [hms, hdel]
      exact hinv
  · have hdel : (onDeleteRow w ci q (some pkF) cache r).1 = cache := by
      simp [onDeleteRow, hp]
    rw [hdel]
    have hstep : (stepMirror pkF mirror (.delete r)).filter (rowMatches w ci) =
        mirror.filter (rowMatches w ci) := by
      show (mirror.filter (fun m => !(m pkF == r pkF))).filter (rowMatches w ci) = _
      rw [List.filter_filter]
      apply List.filter_congr
      intro m hm
      by_cases hpm : rowMatches w ci m = true
      · have hq2 : ¬(m pkF = r pkF) := by
          intro he
          exact hp (huniq m hm he ▸ hpm)
        simp [hpm, hq2]
      · simp [Bool.eq_false_iff.mpr hpm]
    rw [hstep]
    exact hinv

/-- The classifier agrees with the truth table on the handlers' membership
test (for no filter both memberships are `true` and the result `stayIn`). -/
theorem classify_eq_rowMatches_table (w : Option Expr) (oldRow newRow : Row)
    (ci : Option Identity) :
    classifyMembership w oldRow newRow ci =
      match rowMatches w ci oldRow, rowMatches w ci newRow with
      | true, false => .leave
      | false, true => .enter
      | true, true => .stayIn
      | false, false => .stayOut := by
  cases w with
  | none => rfl
  | some e => exact classifyMembership_matches_truth_table (some e) oldRow newRow ci

theorem step_update (w : Option Expr) (ci : Option Identity) (q : JStr) (pkF : JStr)
    (hpk : pkF ≠ tagKey) (mirror cache : List Row)
    (hmw : MirrorWF pkF mirror)
    (hinv : (cache.map untagRow).Perm (mirror.filter (rowMatches w ci)))
    (oldRow newRow : Row) (hew : EventWF pkF mirror (.update oldRow newRow)) :
    MirrorWF pkF (stepMirror pkF mirror (.update oldRow newRow)) ∧
      ((onUpdateRow w ci q (some pkF) cache oldRow newRow).map untagRow).Perm
        ((stepMirror pkF mirror (.update oldRow newRow)).filter (rowMatches w ci)) := by
  obtain ⟨hot, hnt, hopk, hpkeq, hom, huniq, hdom⟩ := hew
  obtain ⟨tv, htv⟩ := Option.isSome_iff_exists.mp hopk
  have hms : stepMirror pkF mirror (.update oldRow newRow) =
      mirror.map (fun m => if m pkF == oldRow pkF then newRow else m) := rfl
  have hgpk : ∀ m : Row,
      (if m pkF == oldRow pkF then newRow else m) pkF = m pkF := by
    intro m
    by_cases hq2 : (m pkF == oldRow pkF) = true
    · rw [if_pos hq2, ← hpkeq, beq_iff_eq.mp hq2]
    · rw [if_neg hq2]
  have hmwf : MirrorWF pkF (stepMirror pkF mirror (.update oldRow newRow)) := by
    rw [hms]
    constructor
    · intro x hx
      obtain ⟨m, hm, hgm⟩ := List.mem_map.mp hx
      by_cases hq2 : (m pkF == oldRow pkF) = true
      · rw [if_pos hq2] at hgm
        subst hgm
        exact ⟨hnt, by rw [← hpkeq]; exact hopk⟩
      · rw [if_neg hq2] at hgm
        subst hgm
        exact hmw.1 m hm
    · have : (mirror.map (fun m => if m pkF == oldRow pkF then newRow else m)).map
          (fun r => r pkF) = mirror.map (fun r => r pkF) := by
        rw [List.map_map]
        exact List.map_congr_left (fun m _ => hgpk m)
      rw [this]
      exact hmw.2
  refine ⟨hmwf, ?_⟩
  -- split the mirror at the updated row's key
  have hsplit : mirror.Perm
      (oldRow :: mirror.filter (fun x => !(x pkF == oldRow pkF))) :=
    mirror_split pkF mirror oldRow hom hmw.2 huniq
  have hrest : ∀ x ∈ mirror.filter (fun x => !(x pkF == oldRow pkF)),
      ¬(x pkF = oldRow pkF) := by
    intro x hx
    have := (List.mem_filter.mp hx).2
    simpa using this
  have hmir2 : (stepMirror pkF mirror (.update oldRow newRow)).Perm
      (newRow :: mirror.filter (fun x => !(x pkF == oldRow pkF))) := by
    rw [hms]
    have h1 := hsplit.map (fun m => if m pkF == oldRow pkF then newRow else m)
    rw [List.map_cons] at h1
    have hgold : (if oldRow pkF == oldRow pkF then newRow else oldRow) = newRow := by
      simp
    have hgrest : (mirror.filter (fun x => !(x pkF == oldRow pkF))).map
        (fun m => if m pkF == oldRow pkF then newRow else m) =
        mirror.filter (fun x => !(x pkF == oldRow pkF)) := by
      rw [show (mirror.filter (fun x => !(x pkF == oldRow pkF))).map
          (fun m => if m pkF == oldRow pkF then newRow else m) =
          (mirror.filter (fun x => !(x pkF == oldRow pkF))).map id from
        List.map_congr_left (fun x hx => by simp [hrest x hx])]
      simp
    rw [hgold, hgrest] at h1
    exact h1
  have hfil2 : ((stepMirror pkF mirror (.update oldRow newRow)).filter
      (rowMatches w ci)).Perm
      ((newRow :: mirror.filter (fun x => !(x pkF == oldRow pkF))).filter
        (rowMatches w ci)) := hmir2.filter _
  have hfil1 : (cache.map untagRow).Perm
      ((oldRow :: mirror.filter (fun x => !(x pkF == oldRow pkF))).filter
        (rowMatches w ci)) := hinv.trans (hsplit.filter _)
  cases hpo : rowMatches w ci oldRow with
  | false =>
    cases hpn : rowMatches w ci newRow with
    | false =>
      -- stayOut
      have hcl : classifyMembership w oldRow newRow ci = .stayOut := by
        rw [classify_eq_rowMatches_table, hpo, hpn]
      have hcache : onUpdateRow w ci q (some pkF) cache oldRow newRow = cache := by
        simp [onUpdateRow, hcl]
      rw [hcache]
      refine (hfil1.trans ?_).trans hfil2.symm
      rw [List.filter_cons, List.filter_cons]
      simp [hpo, hpn]
    | true =>
      -- enter
      have hcl : classifyMembership w oldRow newRow ci = .enter := by
        rw [classify_eq_rowMatches_table, hpo, hpn]
      have hcache : onUpdateRow w ci q (some pkF) cache oldRow newRow =
          cache ++ [newRow] := by
        simp [onUpdateRow, hcl]
      rw [hcache, List.map_append]
      have hnu : [newRow].map untagRow = [newRow] := by
        simp [untagRow_eq_self newRow hnt]
      rw [hnu]
      have h1 : ((cache.map untagRow) ++ [newRow]).Perm
          (newRow :: cache.map untagRow) := List.perm_append_singleton _ _
      have hfc : (newRow :: mirror.filter (fun x => !(x pkF == oldRow pkF))).filter
          (rowMatches w ci) =
          newRow :: (mirror.filter (fun x => !(x pkF == oldRow pkF))).filter
            (rowMatches w ci) := by
        rw [List.filter_cons]
        simp [hpn]
      rw [hfc] at hfil2
      have hfo : (oldRow :: mirror.filter (fun x => !(x pkF == oldRow pkF))).filter
          (rowMatches w ci) =
          (mirror.filter (fun x => !(x pkF == oldRow pkF))).filter
            (rowMatches w ci) := by
        rw [List.filter_cons]
        simp [hpo]
      rw [hfo] at hfil1
      exact h1.trans ((List.Perm.cons newRow hfil1).trans hfil2.symm)
  | true =>
    -- the old row is cached: locate it
    have hof : oldRow ∈ mirror.filter (rowMatches w ci) :=
      List.mem_filter.mpr ⟨hom, hpo⟩
    have hocm : oldRow ∈ cache.map untagRow := hinv.mem_iff.mpr hof
    obtain ⟨c₀, hc₀, hc₀u⟩ := List.mem_map.mp hocm
    have hc₀pk : c₀ pkF = some tv := by
      rw [← untagRow_pk c₀ pkF hpk, hc₀u, htv]
    have hfound : findIdxA (fun c =>
        match c pkF with
        | some cv => pkMatch cv tv
        | none => false) cache ≠ none := by
      intro hn
      have := (findIdxA_none_iff _ cache).mp hn c₀ hc₀
      rw [hc₀pk] at this
      have h3 : pkMatch tv tv = false := this
      rw [(pkMatch_iff tv tv).mpr rfl] at h3
      simp at h3
    have hcnt : cache.countP (fun c => c pkF == some tv) ≤ 1 :=
      cache_countP_le_one w ci pkF hpk mirror cache hmw.2 hinv tv
    -- every cache row with the key untags to the old row
    have hckey : ∀ c ∈ cache, c pkF = some tv → untagRow c = oldRow := by
      intro c hc hcp
      have h1 : untagRow c ∈ mirror.filter (rowMatches w ci) :=
        hinv.mem_iff.mp (List.mem_map_of_mem _ hc)
      have h2 := List.mem_filter.mp h1
      exact huniq _ h2.1 (by rw [untagRow_pk c pkF hpk, hcp, htv])
    cases hpn : rowMatches w ci newRow with
    | false =>
      -- leave
      have hcl : classifyMembership w oldRow newRow ci = .leave := by
        rw [classify_eq_rowMatches_table, hpo, hpn]
      cases hfi : findIdxA (fun c =>
          match c pkF with
          | some cv => pkMatch cv tv
          | none => false) cache with
      | none => exact absurd hfi hfound
      | some i =>
        have hcache : onUpdateRow w ci q (some pkF) cache oldRow newRow =
            removeAtIndex cache i := by
          simp [onUpdateRow, hcl,
            findRowIndex_pk_untagged cache (some q) oldRow pkF tv htv hot, hfi]
        have herase : removeAtIndex cache i =
            cache.filter (fun c => !(c pkF == some tv)) := by
          have h1 := remove_found_eq_eraseFirst (fun c =>
            match c pkF with
            | some cv => pkMatch cv tv
            | none => false) cache
          rw [hfi] at h1
          have h2 : removeAtIndex cache i = eraseFirst (fun c =>
            match c pkF with
            | some cv => pkMatch cv tv
            | none => false) cache := h1
          rw [h2, pkPredFun_eq pkF tv]
          exact eraseFirst_eq_filter _ cache hcnt
        rw [hcache, herase]
        have hmapfil : (cache.filter (fun c => !(c pkF == some tv))).map untagRow =
            (cache.map untagRow).filter (fun x => !(x pkF == some tv)) := by
          rw [List.filter_map]
          congr 1
          apply List.filter_congr
          intro c _
          show (!(c pkF == some tv)) = (!((untagRow c) pkF == some tv))
          rw [untagRow_pk c pkF hpk]
        rw [hmapfil]
        refine ((hfil1.filter _).trans ?_).trans hfil2.symm
        rw [List.filter_cons, List.filter_cons]
        simp only [hpo, hpn, if_pos, Bool.false_eq_true, if_false]
        rw [List.filter_cons]
        have hoq : (oldRow pkF == some tv) = true := by rw [htv]; exact beq_self_eq_true _
        simp only [hoq, Bool.not_true, Bool.false_eq_true, if_false]
        rw [List.filter_filter, List.filter_filter, List.filter_filter]
        apply List.Perm.of_eq
        apply List.filter_congr
        intro x _
        by_cases hxo : (x pkF == oldRow pkF) = true
        · simp [hxo]
        · have hxo' : ¬(x pkF = oldRow pkF) := by simpa using hxo
          have hxq : (x pkF == some tv) = false := by
            rw [beq_eq_false_iff_ne]
            intro he
            exact hxo' (by rw [he, htv])
          have hxo2 : (x pkF == oldRow pkF) = false := by simpa using hxo
          simp [hxq, hxo2]
    | true =>
      -- stayIn
      have hcl : classifyMembership w oldRow newRow ci = .stayIn := by
        rw [classify_eq_rowMatches_table, hpo, hpn]
      have hcache : onUpdateRow w ci q (some pkF) cache oldRow newRow =
          cache.map (fun c => if (fun c =>
            match c pkF with
            | some cv => pkMatch cv tv
            | none => false) c then objectAssign c newRow else c) := by
        have hlhs : onUpdateRow w ci q (some pkF) cache oldRow newRow =
            (match findIdxA (fun c =>
              match c pkF with
              | some cv => pkMatch cv tv
              | none => false) cache with
            | some i =>
              match cache.get? i with
              | some c => cache.set i (objectAssign c newRow)
              | none => cache
            | none => cache) := by
          simp only [onUpdateRow, hcl,
            findRowIndex_pk_untagged cache (some q) oldRow pkF tv htv hot]
          cases findIdxA (fun c =>
              match c pkF with
              | some cv => pkMatch cv tv
              | none => false) cache with
          | none => rfl
          | some i => rfl
        rw [hlhs]
        have hcnt₂ : cache.countP (fun c =>
            match c pkF with
            | some cv => pkMatch cv tv
            | none => false) ≤ 1 := by
          rw [pkPredFun_eq pkF tv]
          exact hcnt
        exact assign_found_eq_map _ (fun c => objectAssign c newRow) cache hcnt₂
      rw [hcache]
      -- untagging the updated cache is the key-directed replacement of the
      -- untagged cache
      have hmapstep : (cache.map (fun c => if (fun c =>
          match c pkF with
          | some cv => pkMatch cv tv
          | none => false) c then objectAssign c newRow else c)).map untagRow =
          (cache.map untagRow).map
            (fun x => if x pkF == some tv then newRow else x) := by
        rw [List.map_map, List.map_map]
        apply List.map_congr_left
        intro c hc
        show untagRow (if (match c pkF with
          | some cv => pkMatch cv tv
          | none => false) = true then objectAssign c newRow else c) =
          (if (untagRow c) pkF == some tv then newRow else untagRow c)
        by_cases hcp : c pkF = some tv
        · have hpred : (match c pkF with
            | some cv => pkMatch cv tv
            | none => false) = true := (pkPred_iff pkF tv c).mpr hcp
          have hbq : ((untagRow c) pkF == some tv) = true := by
            rw [untagRow_pk c pkF hpk, hcp]
            exact beq_self_eq_true _
          rw [if_pos hpred, if_pos hbq]
          -- untag (assign c new) = new
          have hco : untagRow c = oldRow := hckey c hc hcp
          funext k
          by_cases hk : k = tagKey
          · subst hk
            simp [untagRow, hnt]
          · simp only [untagRow, if_neg hk, objectAssign]
            cases hn : newRow k with
            | some v => rfl
            | none =>
              have h1 : oldRow k = none := hdom k hn
              have h2 : c k = oldRow k := by
                rw [← hco]
                simp [untagRow, hk]
              rw [h2, h1]
        · have hpred : (match c pkF with
            | some cv => pkMatch cv tv
            | none => false) = false := by
            rw [Bool.eq_false_iff]
            intro hx
            exact hcp ((pkPred_iff pkF tv c).mp hx)
          have hbq : ((untagRow c) pkF == some tv) = false := by
            rw [untagRow_pk c pkF hpk, beq_eq_false_iff_ne]
            exact hcp
          rw [hpred, hbq]
          simp
      rw [hmapstep]
      refine ((hfil1.map _).trans ?_).trans hfil2.symm
      rw [List.filter_cons, List.filter_cons]
      simp only [hpo, hpn, if_pos]
      rw [List.map_cons]
      have hoq : (oldRow pkF == some tv) = true := by rw [htv]; exact beq_self_eq_true _
      rw [if_pos hoq]
      apply List.Perm.cons
      apply List.Perm.of_eq
      have hid : ∀ x ∈ (mirror.filter (fun x => !(x pkF == oldRow pkF))).filter
          (rowMatches w ci),
          (if x pkF == some tv then newRow else x) = x := by
        intro x hx
        have hxm := List.mem_filter.mp hx
        have hxo' : ¬(x pkF = oldRow pkF) := hrest x hxm.1
        have hxq : (x pkF == some tv) = false := by
          rw [beq_eq_false_iff_ne]
          intro he
          exact hxo' (by rw [he, htv])
        rw [hxq]
        simp
      rw [List.map_congr_left hid]
      simp

/-- One well-formed notification preserves mirror well-formedness and the
cache/mirror consistency invariant. -/
theorem step_preserves (w : Option Expr) (ci : Option Identity) (q : JStr)
    (pkF : JStr) (hpk : pkF ≠ tagKey) (mirror cache : List Row)
    (hmw : MirrorWF pkF mirror)
    (hinv : (cache.map untagRow).Perm (mirror.filter (rowMatches w ci)))
    (e : TableEvent) (hew : EventWF pkF mirror e) :
    MirrorWF pkF (stepMirror pkF mirror e) ∧
      ((stepCache w ci q pkF cache e).map untagRow).Perm
        ((stepMirror pkF mirror e).filter (rowMatches w ci)) := by
  cases e with
  | insert r => exact step_insert w ci q pkF hpk mirror cache hmw hinv r hew
  | delete r => exact step_delete w ci q pkF hpk mirror cache hmw hinv r hew
  | update oldRow newRow =>
    exact step_update w ci q pkF hpk mirror cache hmw hinv oldRow newRow hew

theorem run_events (w : Option Expr) (ci : Option Identity) (q : JStr)
    (pkF : JStr) (hpk : pkF ≠ tagKey) :
    ∀ (events : List TableEvent) (mirror cache : List Row),
      MirrorWF pkF mirror →
      (cache.map untagRow).Perm (mirror.filter (rowMatches w ci)) →
      EventsWF pkF mirror events →
      MirrorWF pkF (events.foldl (stepSystem w ci q pkF) (mirror, cache)).1 ∧
        ((events.foldl (stepSystem w ci q pkF) (mirror, cache)).2.map untagRow).Perm
          ((events.foldl (stepSystem w ci q pkF) (mirror, cache)).1.filter
            (rowMatches w ci)) := by
  intro events
  induction events with
  | nil =>
    intro mirror cache hmw hinv _
    exact ⟨hmw, hinv⟩
  | cons e rest ih =>
    intro mirror cache hmw hinv hwf
    obtain ⟨hew, hwf₂⟩ := hwf
    have hstep := step_preserves w ci q pkF hpk mirror cache hmw hinv e hew
    exact ih (stepMirror pkF mirror e) (stepCache w ci q pkF cache e)
      hstep.1 hstep.2 hwf₂

/-- Seeding from the mirror produces exactly the filtered mirror (up to the
bookkeeping tag the seeding writes onto each cached row). -/
theorem seed_inv (w : Option Expr) (ci : Option Identity) (q : JStr)
    (mirror : List Row) (h : ∀ r ∈ mirror, r tagKey = none) :
    (initializeFromCache w ci q mirror).map untagRow =
      mirror.filter (rowMatches w ci) := by
  unfold initializeFromCache
  rw [List.map_map]
  have hc : ∀ r ∈ mirror.filter (rowMatches w ci), (untagRow ∘ tagRow q) r = r :=
    fun r hr => untagRow_tagRow q r (h r (List.mem_of_mem_filter hr))
  rw [List.map_congr_left hc]
  simp

/-- C1: for a primary-keyed table (key field distinct from the internal tag
property), any well-formed initial mirror snapshot, and any well-formed
sequence of insert/delete/update notifications processed after `ready`, the
row cache — seeded by `initializeFromCache` and mutated by the `onInsert`/
`onDelete`/`onUpdate` handlers — equals, as a multiset of data rows (the
cached rows minus the internal query tag), exactly the rows of the full local
table mirror on which the filter evaluates true. -/
theorem cache_consistency_after_replay (w : Option Expr) (ci : Option Identity)
    (q : JStr) (pkF : JStr) (hpk : pkF ≠ tagKey)
    (mirror₀ : List Row) (hmw : MirrorWF pkF mirror₀)
    (events : List TableEvent) (hev : EventsWF pkF mirror₀ events) :
    ((events.foldl (stepSystem w ci q pkF)
        (mirror₀, initializeFromCache w ci q mirror₀)).2.map untagRow).Perm
      ((events.foldl (stepSystem w ci q pkF)
        (mirror₀, initializeFromCache w ci q mirror₀)).1.filter
        (rowMatches w ci)) := by
  have hseed : ((initializeFromCache w ci q mirror₀).map untagRow).Perm
      (mirror₀.filter (rowMatches w ci)) := by
    rw [seed_inv w ci q mirror₀ (fun r hr => (hmw.1 r hr).1)]
  exact (run_events w ci q pkF hpk events mirror₀ _ hmw hseed hev).2

/-- Concrete scenario rows for the C1 witness (spec scenario 1: a `message`
table filtered on `groupchat_id = 7`). -/
def wrow1 : Row := fun k =>
  if k = "id".data then some (.num 1)
  else if k = "groupchat_id".data then some (.num 7) else none

/-- Snapshot row of another group. -/
def wrow2 : Row := fun k =>
  if k = "id".data then some (.num 2)
  else if k = "groupchat_id".data then some (.num 8) else none

/-- A freshly inserted matching row. -/
def wrow3 : Row := fun k =>
  if k = "id".data then some (.num 3)
  else if k = "groupchat_id".data then some (.num 7) else none

/-- Witness for C1: a two-row snapshot followed by a fresh matching insert. -/
theorem cache_consistency_after_replay_witness :
    ("id".data ≠ tagKey) ∧
      MirrorWF "id".data [wrow1, wrow2] ∧
      EventsWF "id".data [wrow1, wrow2] [TableEvent.insert wrow3] ∧
      (([TableEvent.insert wrow3].foldl
          (stepSystem (some (.eq "groupchat_id".data (.num 7))) none "q".data "id".data)
          ([wrow1, wrow2],
            initializeFromCache (some (.eq "groupchat_id".data (.num 7))) none "q".data
              [wrow1, wrow2])).2.map untagRow).Perm
        (([TableEvent.insert wrow3].foldl
          (stepSystem (some (.eq "groupchat_id".data (.num 7))) none "q".data "id".data)
          ([wrow1, wrow2],
            initializeFromCache (some (.eq "groupchat_id".data (.num 7))) none "q".data
              [wrow1, wrow2])).1.filter
          (rowMatches (some (.eq "groupchat_id".data (.num 7))) none)) := by
  have hpk : ("id".data : JStr) ≠ tagKey := by decide
  have hmw : MirrorWF "id".data [wrow1, wrow2] := by
    constructor
    · intro r hr
      rcases List.mem_cons.mp hr with rfl | hr
      · exact ⟨by decide, by decide⟩
      rcases List.mem_cons.mp hr with rfl | hr
      · exact ⟨by decide, by decide⟩
      · simp at hr
    · show (List.map (fun r => r "id".data) [wrow1, wrow2]).Nodup
      decide
  have hev : EventsWF "id".data [wrow1, wrow2] [TableEvent.insert wrow3] := by
    refine ⟨⟨by decide, by decide, ?_⟩, trivial⟩
    rintro ⟨m, hm, he⟩
    exfalso
    rcases List.mem_cons.mp hm with rfl | hm
    · exact absurd he (by decide)
    rcases List.mem_cons.mp hm with rfl | hm
    · exact absurd he (by decide)
    · simp at hm
  exact ⟨hpk, hmw, hev,
    cache_consistency_after_replay (some (.eq "groupchat_id".data (.num 7))) none
      "q".data "id".data hpk [wrow1, wrow2] hmw [TableEvent.insert wrow3] hev⟩
